import Mathlib

/-!
# A-Maze-ing — verification of the maze-generation core

Shallow embedding of `src/mazegen/models.py`, `src/mazegen/generator.py` and
`src/utils/write_output.py`, together with proofs that settle the frozen
specification claims.  Python integers are `Int`/`Nat`; fallible
constructors return `Except String`; the seeded PRNG is modelled as an
arbitrary stream `Nat → Nat`, so every theorem quantified over streams in
particular covers the stream Python's seeded Mersenne Twister produces.
-/

namespace AMazeIng

/-- Grid coordinates `(x, y)`, Python integer pairs. -/
abbrev Pos := Int × Int

/-- `Cell` (models.py): the four walls packed as a 4-bit field (bit set =
wall present), plus the visited flag used by the carving algorithms. -/
structure Cell where
  walls : Nat
  visitedFlag : Bool
deriving DecidableEq

/-- `Cell.__init__`: all four walls present (`0b1111`), unvisited. -/
def Cell.mkInit : Cell := ⟨15, false⟩

def Cell.NORTH : Nat := 1
def Cell.EAST : Nat := 2
def Cell.SOUTH : Nat := 4
def Cell.WEST : Nat := 8

/-- `Cell.remove_*_wall` via `_remove_wall`: `self._walls &= ~w`.  Wall
fields always stay below 16, where clearing bit `w` is `&&& (15 ^^^ w)`. -/
def Cell.removeWall (c : Cell) (w : Nat) : Cell :=
  { c with walls := c.walls &&& (15 ^^^ w) }

/-- `Cell.has_*_wall`: `bool(self._walls & w)`. -/
def Cell.hasWall (c : Cell) (w : Nat) : Bool := c.walls &&& w != 0

/-- `Cell.set_visited`. -/
def Cell.setVisited (c : Cell) (b : Bool) : Cell := { c with visitedFlag := b }

/-- Hex digit table backing `Cell.to_hex` (`hex(self._walls)[2:].upper()`;
wall fields are always in `0..15`, so the result is a single digit). -/
def hexDigit (n : Nat) : Char := ("0123456789ABCDEF".toList).getD n 'X'

/-- `Cell.to_hex`. -/
def Cell.toHex (c : Cell) : String := String.mk [hexDigit c.walls]

/-- The maze grid `self.maze[y][x]`, modelled as a total map from
coordinates to cells; the Python list-of-lists is only ever indexed inside
the validated bounds. -/
abbrev Grid := Pos → Cell

/-- `_generate_grid`: a fresh grid of unvisited, fully walled cells. -/
def generateGrid : Grid := fun _ => Cell.mkInit

/-- Writing one cell (`self.maze[y][x] = c` effects on the map). -/
def setCell (g : Grid) (p : Pos) (c : Cell) : Grid :=
  fun q => if q = p then c else g q

/-- `MazeGenerator.DIRECTIONS`: `(dx, dy, wall, opposite wall)`. -/
def DIRECTIONS : List (Int × Int × Nat × Nat) :=
  [(0, -1, Cell.NORTH, Cell.SOUTH),
   (1, 0, Cell.EAST, Cell.WEST),
   (0, 1, Cell.SOUTH, Cell.NORTH),
   (-1, 0, Cell.WEST, Cell.EAST)]

/-- The 42-pattern anchor `(pattern_x, pattern_y)` from
`_generate_pattern_42`: `int((w - 7) / 2)` truncates a positive quotient,
i.e. floor division. -/
def patternAnchor (width height : Int) : Pos :=
  ((width - 7) / 2, (height - 5) / 2)

/-- `_generate_pattern_42`: the fixed glyph region for `w > 8 ∧ h > 8`,
rejecting an entry or exit inside it; smaller mazes raise. -/
def generatePattern42 (width height : Int) (entry mazeExit : Pos) :
    Except String (List Pos) :=
  if 8 < width ∧ 8 < height then
    let px := (patternAnchor width height).1
    let py := (patternAnchor width height).2
    let pattern : List Pos :=
      [(px, py), (px, py + 1), (px, py + 2),
       (px + 1, py + 2),
       (px + 2, py + 2), (px + 2, py + 3), (px + 2, py + 4),
       (px + 4, py), (px + 4, py + 2), (px + 4, py + 3), (px + 4, py + 4),
       (px + 5, py), (px + 5, py + 2), (px + 5, py + 4),
       (px + 6, py), (px + 6, py + 1), (px + 6, py + 2), (px + 6, py + 4)]
    if entry ∈ pattern then Except.error "Entry point is inside 42 pattern!"
    else if mazeExit ∈ pattern then Except.error "Exit point is inside 42 pattern!"
    else Except.ok pattern
  else Except.error "Cannot generate 42 pattern, maze too small!"

/-- `_validate_inputs`.  The `isinstance` checks hold by typing; Python's
`if seed:` is false for `None` and for `0`, so only a nonzero supplied seed
reaches the range check. -/
def validateInputs (width height : Int) (entry mazeExit : Pos)
    (seed : Option Int) (outputFile : String) (perfect : Bool) :
    Except String Unit :=
  if width ≤ 0 ∨ height ≤ 0 then
    Except.error "Width and height must be greater than 0!"
  else if width < 3 ∨ height < 3 then
    Except.error "A valid maze must be at least 3x3!"
  else if ¬ (0 ≤ entry.1 ∧ entry.1 < width ∧ 0 ≤ entry.2 ∧ entry.2 < height) then
    Except.error "entry is out of maze dimentions!"
  else if ¬ (0 ≤ mazeExit.1 ∧ mazeExit.1 < width ∧ 0 ≤ mazeExit.2 ∧ mazeExit.2 < height) then
    Except.error "maze_exit is out of maze dimentions!"
  else if entry = mazeExit then
    Except.error "Entry and exit should be different cells"
  else
    match seed with
    | some s =>
      if s ≠ 0 then
        if s < 0 then Except.error "Seed value must be greater than 0!"
        else Except.ok ()
      else Except.ok ()
    | none => Except.ok ()

/-- The `MazeGenerator` object state.  `maze = none` models the empty list
`self.maze = []` (`if not self.maze` is its only emptiness observation). -/
structure MazeGen where
  width : Int
  height : Int
  entry : Pos
  mazeExit : Pos
  seed : Int
  outputFile : String
  perfect : Bool
  pattern42 : List Pos
  maze : Option Grid
  path : List Pos

/-- `MazeGenerator.__init__`.  After validation, the line
`self.seed = seed if seed else self.seed` reads `self.seed` before any
assignment to it, so a falsy seed (`None` or `0`) raises `AttributeError`;
then `_generate_pattern_42` runs and can fail the whole construction. -/
def mazeGenInit (width height : Int) (entry mazeExit : Pos)
    (outputFile : String) (perfect : Bool) (seed : Option Int) :
    Except String MazeGen := do
  let _ ← validateInputs width height entry mazeExit seed outputFile perfect
  let s ← match seed with
    | some s =>
      if s ≠ 0 then Except.ok s
      else Except.error "AttributeError: 'MazeGenerator' object has no attribute 'seed'"
    | none => Except.error "AttributeError: 'MazeGenerator' object has no attribute 'seed'"
  let pattern ← generatePattern42 width height entry mazeExit
  Except.ok { width := width, height := height, entry := entry,
              mazeExit := mazeExit, seed := s, outputFile := outputFile,
              perfect := perfect, pattern42 := pattern,
              maze := none, path := [] }

/-- `_is_not_42_pattern`: `all((x, y) != p for p in self.pattern_42)`. -/
def isNot42Pattern (pattern : List Pos) (x y : Int) : Bool :=
  pattern.all (fun p => decide (((x, y) : Pos) ≠ p))

/-- `_in_maze_bounds`. -/
def inMazeBounds (width height : Int) (pattern : List Pos) (x y : Int) : Bool :=
  decide (0 ≤ x ∧ x < width ∧ 0 ≤ y ∧ y < height) && isNot42Pattern pattern x y

/-- `_wall_count`: number of present walls (0–4). -/
def wallCount (c : Cell) : Nat :=
  (if c.hasWall Cell.EAST then 1 else 0) + (if c.hasWall Cell.NORTH then 1 else 0) +
  (if c.hasWall Cell.SOUTH then 1 else 0) + (if c.hasWall Cell.WEST then 1 else 0)

/-- Carving between `(x, y)` and the neighbor:
`self._remove_wall(current, wall); self._remove_wall(neighbor, op_wall)`. -/
def carveWallPair (g : Grid) (p q : Pos) (w ow : Nat) : Grid :=
  let g1 := setCell g p ((g p).removeWall w)
  setCell g1 q ((g1 q).removeWall ow)

/-- The seeded PRNG stream: `rng k` is the raw value behind the `k`-th
`randint(0, n - 1)` call of a (re)seeded run; the draw is `rng k % n`. -/
abbrev Rng := Nat → Nat

/-- Carving/braiding step events `(coordinate, wall)`; the run sentinel is
`(entry, -1)`. -/
abbrev Event := Pos × Int

/-- State threaded through `dfs_steps`: the Python list stack's top
(`stack[-1]`) is the head here; `k` counts consumed RNG draws; `events` are
the yielded step events in order. -/
structure DfsState where
  grid : Grid
  stack : List Pos
  k : Nat
  events : List Event

/-- The unvisited in-bounds neighbor scan of `dfs_steps`, in `DIRECTIONS`
order. -/
def dfsNeighbors (width height : Int) (pattern : List Pos) (g : Grid)
    (x y : Int) : List (Int × Int × Nat × Nat) :=
  DIRECTIONS.filterMap (fun (dx, dy, w, ow) =>
    let nx := x + dx
    let ny := y + dy
    if inMazeBounds width height pattern nx ny && !(g (nx, ny)).visitedFlag then
      some (nx, ny, w, ow)
    else none)

/-- One iteration of the `while stack:` body of `dfs_steps`. -/
def dfsStep (width height : Int) (pattern : List Pos) (rng : Rng)
    (s : DfsState) : DfsState :=
  match s.stack with
  | [] => s
  | (x, y) :: rest =>
    let neighbors := dfsNeighbors width height pattern s.grid x y
    match neighbors with
    | [] => { s with stack := rest }
    | _ :: _ =>
      let idx := rng s.k % neighbors.length
      match neighbors.getD idx (0, 0, 0, 0) with
      | (nx, ny, w, ow) =>
        let g1 := carveWallPair s.grid (x, y) (nx, ny) w ow
        let g2 := setCell g1 (nx, ny) ((g1 (nx, ny)).setVisited true)
        { grid := g2, stack := (nx, ny) :: s.stack, k := s.k + 1,
          events := s.events ++ [((x, y), (w : Int))] }

/-- `dfs_steps` before the loop: fresh grid, entry visited and pushed, the
sentinel event `(entry, -1)` emitted. -/
def dfsInit (entry : Pos) : DfsState :=
  { grid := setCell generateGrid entry ((generateGrid entry).setVisited true),
    stack := [entry], k := 0, events := [(entry, -1)] }

/-- The `while stack:` loop of `dfs_steps`, fuel-bounded. -/
def dfsLoop (width height : Int) (pattern : List Pos) (rng : Rng) :
    Nat → DfsState → DfsState
  | 0, s => s
  | fuel + 1, s =>
    match s.stack with
    | [] => s
    | _ :: _ =>
      dfsLoop width height pattern rng fuel (dfsStep width height pattern rng s)

/-- `range(lo, hi)` over integers. -/
def intRange (lo hi : Int) : List Int :=
  (List.range (hi - lo).toNat).map (fun (i : Nat) => lo + (i : Int))

/-- The eligible-neighbor scan of `braid_dead_ends` (in-bounds,
non-protected; no visited check). -/
def braidNeighbors (width height : Int) (pattern : List Pos) (x y : Int) :
    List (Int × Int × Nat × Nat) :=
  DIRECTIONS.filterMap (fun (dx, dy, w, ow) =>
    let nx := x + dx
    let ny := y + dy
    if inMazeBounds width height pattern nx ny then some (nx, ny, w, ow)
    else none)

/-- The body of the braid double loop at one interior `(x, y)`: skip
pattern cells, and for a dead end (exactly 3 walls) with eligible neighbors
carve one wall pair chosen by `randint`.  Threads `(grid, draw index)`. -/
def braidCell (width height : Int) (pattern : List Pos) (rng : Rng)
    (x y : Int) (st : Grid × Nat) : Grid × Nat :=
  let g := st.1
  if !(isNot42Pattern pattern x y) then st
  else if wallCount (g (x, y)) = 3 then
    let neighbors := braidNeighbors width height pattern x y
    match neighbors with
    | [] => st
    | _ :: _ =>
      let idx := rng st.2 % neighbors.length
      match neighbors.getD idx (0, 0, 0, 0) with
      | (nx, ny, w, ow) => (carveWallPair g (x, y) (nx, ny) w ow, st.2 + 1)
  else st

/-- `braid_dead_ends`: `seed(self.seed)` restarts the stored seed's stream
(draw index 0), then a row-major pass over the interior cells. -/
def braidDeadEnds (width height : Int) (pattern : List Pos) (rng : Rng)
    (g : Grid) : Grid × Nat :=
  (intRange 1 (height - 1)).foldl
    (fun st y =>
      (intRange 1 (width - 1)).foldl
        (fun st' x => braidCell width height pattern rng x y st') st)
    (g, 0)

/-- `dfs()` (i.e. `dfs_steps` run to completion, then `braid_dead_ends`
when the perfect flag is false): final grid and emitted events.  `fuel`
bounds the loop; every large enough value gives the terminal state. -/
def dfsRun (width height : Int) (pattern : List Pos) (rng : Rng)
    (perfect : Bool) (entry : Pos) (fuel : Nat) : Grid × List Event :=
  let s := dfsLoop width height pattern rng fuel (dfsInit entry)
  let g := if perfect then s.grid
           else (braidDeadEnds width height pattern rng s.grid).1
  (g, s.events)

/-- State threaded through `prim_steps`: the frontier holds
`(curr_x, curr_y, next_x, next_y, wall, op_wall)` candidate edges. -/
structure PrimState where
  grid : Grid
  frontier : List (Int × Int × Int × Int × Nat × Nat)
  k : Nat
  events : List Event

/-- `add_to_frontier`: the candidate edges from `(x, y)` to its unvisited
in-bounds neighbors (appended to the frontier by the caller). -/
def addToFrontier (width height : Int) (pattern : List Pos) (g : Grid)
    (x y : Int) : List (Int × Int × Int × Int × Nat × Nat) :=
  DIRECTIONS.filterMap (fun (dx, dy, w, ow) =>
    let nx := x + dx
    let ny := y + dy
    if inMazeBounds width height pattern nx ny && !(g (nx, ny)).visitedFlag then
      some (x, y, nx, ny, w, ow)
    else none)

/-- `prim_steps` before the loop: fresh grid, entry visited, its edges in
the frontier, sentinel event emitted. -/
def primInit (width height : Int) (pattern : List Pos) (entry : Pos) :
    PrimState :=
  let g := setCell generateGrid entry ((generateGrid entry).setVisited true)
  { grid := g,
    frontier := addToFrontier width height pattern g entry.1 entry.2,
    k := 0, events := [(entry, -1)] }

/-- One iteration of the `while frontier:` body of `prim_steps`:
`frontier.pop(randint(0, len(frontier) - 1))`, then carve/visit/extend and
emit when the target is still unvisited, else discard silently. -/
def primStep (width height : Int) (pattern : List Pos) (rng : Rng)
    (s : PrimState) : PrimState :=
  match s.frontier with
  | [] => s
  | _ :: _ =>
    let idx := rng s.k % s.frontier.length
    match s.frontier.getD idx (0, 0, 0, 0, 0, 0), s.frontier.eraseIdx idx with
    | (cx, cy, nx, ny, w, ow), rest =>
      if !(s.grid (nx, ny)).visitedFlag then
        let g1 := carveWallPair s.grid (cx, cy) (nx, ny) w ow
        let g2 := setCell g1 (nx, ny) ((g1 (nx, ny)).setVisited true)
        { grid := g2,
          frontier := rest ++ addToFrontier width height pattern g2 nx ny,
          k := s.k + 1,
          events := s.events ++ [((cx, cy), (w : Int))] }
      else { s with frontier := rest, k := s.k + 1 }

/-- The `while frontier:` loop of `prim_steps`, fuel-bounded. -/
def primLoop (width height : Int) (pattern : List Pos) (rng : Rng) :
    Nat → PrimState → PrimState
  | 0, s => s
  | fuel + 1, s =>
    match s.frontier with
    | [] => s
    | _ :: _ =>
      primLoop width height pattern rng fuel (primStep width height pattern rng s)

/-- `prim()` run to completion, braiding afterwards when the perfect flag
is false. -/
def primRun (width height : Int) (pattern : List Pos) (rng : Rng)
    (perfect : Bool) (entry : Pos) (fuel : Nat) : Grid × List Event :=
  let s := primLoop width height pattern rng fuel (primInit width height pattern entry)
  let g := if perfect then s.grid
           else (braidDeadEnds width height pattern rng s.grid).1
  (g, s.events)

/-- A priority-queue entry of `find_shortest_path_steps`:
`(cost, (x, y), path)`. -/
abbrev DijEntry := Nat × Pos × List Pos

/-- `heapq` ordering key.  Entries are Python tuples compared
lexicographically; reachable queues never hold two entries with equal
`(cost, x, y)` (per-cell pushed costs strictly decrease), so the path
component never decides a comparison. -/
def dijKey (e : DijEntry) : Nat × Int × Int := (e.1, e.2.1.1, e.2.1.2)

/-- Strict key order backing `heappop`. -/
def dijKeyLe (a b : DijEntry) : Bool :=
  let ka := dijKey a
  let kb := dijKey b
  decide (ka.1 < kb.1 ∨ (ka.1 = kb.1 ∧ (ka.2.1 < kb.2.1 ∨
    (ka.2.1 = kb.2.1 ∧ ka.2.2 ≤ kb.2.2))))

/-- `heapq.heappop`: remove a minimal entry (the first minimal one; keys
are distinct on reachable queues, so any choice is the heap's). -/
def popMin : List DijEntry → Option (DijEntry × List DijEntry)
  | [] => none
  | e :: es =>
    match popMin es with
    | none => some (e, [])
    | some (m, rest) => if dijKeyLe e m then some (e, es) else some (m, e :: rest)

/-- The relaxation direction list of `find_shortest_path_steps`, with the
current cell's wall flags: `(dx, dy, has_wall)`. -/
def relaxDirs (c : Cell) : List (Int × Int × Bool) :=
  [(0, -1, c.hasWall Cell.NORTH),
   (1, 0, c.hasWall Cell.EAST),
   (0, 1, c.hasWall Cell.SOUTH),
   (-1, 0, c.hasWall Cell.WEST)]

/-- Search state: the queue, the best-known-cost map
(`distance.get(p, float('inf'))` is `none` here), and the popped entries in
pop order (each pop `yield`s its path, so this is the emitted step trace). -/
structure DijState where
  pq : List DijEntry
  dist : Pos → Option Nat
  popped : List DijEntry

/-- `distance.get(p, inf)` update `distance[p] = c`. -/
def setDist (d : Pos → Option Nat) (p : Pos) (c : Nat) : Pos → Option Nat :=
  fun q => if q = p then some c else d q

/-- One relaxation of the `for dx, dy, has_wall in directions:` body from
the popped cell `v` at cost `c` carrying `path`. -/
def dijRelax (width height : Int) (v : Pos) (c : Nat) (path : List Pos)
    (st : List DijEntry × (Pos → Option Nat)) (d : Int × Int × Bool) :
    List DijEntry × (Pos → Option Nat) :=
  match d with
  | (dx, dy, hasW) =>
    let n : Pos := (v.1 + dx, v.2 + dy)
    if (decide (0 ≤ n.1 ∧ n.1 < width ∧ 0 ≤ n.2 ∧ n.2 < height)) && !hasW then
      let newCost := c + 1
      let better := match st.2 n with
        | none => true
        | some dOld => decide (newCost < dOld)
      if better then
        (st.1 ++ [(newCost, n, path ++ [n])], setDist st.2 n newCost)
      else st
    else st

/-- The expansion of a non-stale popped entry: relax all four directions in
order. -/
def dijExpand (width height : Int) (g : Grid) (v : Pos) (c : Nat)
    (path : List Pos) (pq : List DijEntry) (dist : Pos → Option Nat) :
    List DijEntry × (Pos → Option Nat) :=
  (relaxDirs (g v)).foldl (dijRelax width height v c path) (pq, dist)

/-- The `while pq:` loop of `find_shortest_path_steps`, fuel-bounded.
Each iteration pops a minimal entry, yields it (recorded in `popped`),
returns the path if the exit was popped, skips stale entries
(`current_cost > distance.get(...)`), and otherwise expands. -/
def dijLoop (width height : Int) (g : Grid) (endP : Pos) :
    Nat → DijState → DijState × Option (List Pos)
  | 0, s => (s, none)
  | fuel + 1, s =>
    match popMin s.pq with
    | none => (s, none)
    | some (e, rest) =>
      match e with
      | (c, v, path) =>
        let s1 : DijState := { pq := rest, dist := s.dist, popped := s.popped ++ [e] }
        if v = endP then (s1, some path)
        else
          let stale := match s.dist v with
            | none => false
            | some dv => decide (c > dv)
          if stale then dijLoop width height g endP fuel s1
          else
            let ex := dijExpand width height g v c path rest s.dist
            dijLoop width height g endP fuel { pq := ex.1, dist := ex.2, popped := s1.popped }

/-- The initial search state: `pq = [(0, start, [start])]`,
`distance = {start: 0}`. -/
def dijInit (start : Pos) : DijState :=
  { pq := [(0, start, [start])],
    dist := fun q => if q = start then some 0 else none,
    popped := [] }

/-- `find_shortest_path_steps` run to completion on a generated maze:
the final state and the found path, if any. -/
def dijRun (width height : Int) (g : Grid) (start endP : Pos) (fuel : Nat) :
    DijState × Option (List Pos) :=
  dijLoop width height g endP fuel (dijInit start)

/-- `find_shortest_path()`: with no maze it prints and returns leaving the
state alone; otherwise it runs the search, storing the found path in
`self.path` and leaving it unchanged when the queue is exhausted. -/
def findShortestPath (gen : MazeGen) (fuel : Nat) : MazeGen :=
  match gen.maze with
  | none => gen
  | some g =>
    match (dijRun gen.width gen.height g gen.entry gen.mazeExit fuel).2 with
    | some p => { gen with path := p }
    | none => gen

/-- `maze_to_str`: hex digit per cell, rows joined with newlines. -/
def mazeToStr (width height : Int) (g : Grid) : String :=
  String.intercalate "\n"
    ((intRange 0 height).map (fun y =>
      String.join ((intRange 0 width).map (fun x => (g (x, y)).toHex))))

/-- Modelled from the spec: the repository ships no hex-grid re-parser
(§6 only demands that "re-parsing the hex grid must reproduce identical
wall state per cell"), so the decoder is taken from the spec's words:
split the text into lines and read each character as that cell's 4-bit
wall value. -/
def decodeHexDigit (c : Char) : Nat :=
  (("0123456789ABCDEF".toList).indexOf c)

/-- Modelled from the spec: line splitter for the decoder. -/
def splitOnNewline (cs : List Char) : List (List Char) :=
  match cs with
  | [] => [[]]
  | c :: rest =>
    let r := splitOnNewline rest
    if c = '\n' then [] :: r
    else (c :: r.headD []) :: r.tail

/-- Modelled from the spec: decode the hex-digit text form back into the
per-cell wall-state matrix (row-major, `matrix[y][x]`). -/
def decodeMaze (s : String) : List (List Nat) :=
  (splitOnNewline s.toList).map (fun line => line.map decodeHexDigit)

/-- The wall-state matrix of a grid, for round-trip comparison. -/
def wallMatrix (width height : Int) (g : Grid) : List (List Nat) :=
  (intRange 0 height).map (fun y => (intRange 0 width).map (fun x => (g (x, y)).walls))

/-- `path_to_str` helper: one compass letter per cardinal delta, other
deltas skipped silently. -/
def deltaChar (prev cur : Pos) : List Char :=
  if cur.1 - prev.1 = 0 ∧ cur.2 - prev.2 = -1 then ['N']
  else if cur.1 - prev.1 = 0 ∧ cur.2 - prev.2 = 1 then ['S']
  else if cur.1 - prev.1 = 1 ∧ cur.2 - prev.2 = 0 then ['E']
  else if cur.1 - prev.1 = -1 ∧ cur.2 - prev.2 = 0 then ['W']
  else []

/-- `path_to_str`: fold over consecutive pairs of the stored path. -/
def pathToStr (path : List Pos) : String :=
  match path with
  | [] => ""
  | p0 :: rest =>
    String.mk ((rest.foldl (fun (acc : List Char × Pos) cur =>
      (acc.1 ++ deltaChar acc.2 cur, cur)) ([], p0)).1)

/-- `write_output` (src/utils/write_output.py): the text written to the
output file, and the state effect `gen.maze = []` — every other field is
untouched. -/
def writeOutput (gen : MazeGen) : String × MazeGen :=
  let text :=
    (match gen.maze with
     | some g => mazeToStr gen.width gen.height g
     | none => "") ++ "\n\n" ++
    toString gen.entry.1 ++ ", " ++ toString gen.entry.2 ++ "\n" ++
    toString gen.mazeExit.1 ++ ", " ++ toString gen.mazeExit.2 ++ "\n" ++
    pathToStr gen.path ++ "\n"
  (text, { gen with maze := none })

/-! ## Statement-level predicates -/

/-- In-bounds test `0 <= x < width and 0 <= y < height`. -/
def inGridB (width height : Int) (p : Pos) : Bool :=
  decide (0 ≤ p.1 ∧ p.1 < width ∧ 0 ≤ p.2 ∧ p.2 < height)

/-- Every in-bounds coordinate, row-major. -/
def allCells (width height : Int) : List Pos :=
  (intRange 0 height).flatMap (fun y => (intRange 0 width).map (fun x => (x, y)))

/-- Bounded wall-symmetry check: every in-bounds adjacent pair agrees on
its facing wall pair. -/
def wallSymB (width height : Int) (g : Grid) : Bool :=
  (allCells width height).all (fun a =>
    DIRECTIONS.all (fun (dx, dy, w, ow) =>
      let b : Pos := (a.1 + dx, a.2 + dy)
      !(inGridB width height b) || ((g a).hasWall w == (g b).hasWall ow)))

/-- Wall symmetry as a proposition (the form the preservation proofs use). -/
def WallSymP (width height : Int) (g : Grid) : Prop :=
  ∀ x y dx dy w ow, (dx, dy, w, ow) ∈ DIRECTIONS →
    inGridB width height (x, y) = true →
    inGridB width height (x + dx, y + dy) = true →
    (g (x, y)).hasWall w = (g (x + dx, y + dy)).hasWall ow

/-- The four cardinal moves as the pathfinder scans them:
`(dx, dy, wall bit of the source cell)`. -/
def relDirs : List (Int × Int × Nat) :=
  [(0, -1, 1), (1, 0, 2), (0, 1, 4), (-1, 0, 8)]

/-- One traversal step exactly as `find_shortest_path_steps` allows it:
the target is in bounds and the source cell lacks the facing wall. -/
def stepOpen (width height : Int) (g : Grid) (a b : Pos) : Bool :=
  relDirs.any (fun (dx, dy, wb) =>
    decide (b = ((a.1 + dx, a.2 + dy) : Pos)) && inGridB width height b &&
      !(g a).hasWall wb)

/-- An edge of the open-edge graph: cardinal-adjacent in-bounds cells with
no wall between them on either side. -/
def openEdge (width height : Int) (g : Grid) (a b : Pos) : Bool :=
  stepOpen width height g a b && stepOpen width height g b a

/-- Consecutive pairs of a coordinate list all related by `R`. -/
def chainOk (R : Pos → Pos → Bool) : List Pos → Bool
  | [] => true
  | [_] => true
  | p :: q :: rest => R p q && chainOk R (q :: rest)

/-- A path from `a` to `b` whose consecutive pairs are related by `R`. -/
def pathOk (R : Pos → Pos → Bool) (a b : Pos) (p : List Pos) : Bool :=
  decide (p.head? = some a) && decide (p.getLast? = some b) && chainOk R p

/-- `b` is reachable from `a` along steps the pathfinder can take. -/
def Reaches (width height : Int) (g : Grid) (a b : Pos) : Prop :=
  ∃ p, pathOk (stepOpen width height g) a b p = true

/-- All walls of every protected-pattern cell still fully present (0xF). -/
def patternIntact (pattern : List Pos) (g : Grid) : Bool :=
  pattern.all (fun p => (g p).walls == 15)

/-- A concrete all-zero RNG stream used by the witnesses. -/
def rngZero : Rng := fun _ => 0

/-- A concrete carved 3×3 maze used by the witnesses: DFS, no protected
region, entry `(0, 0)`. -/
def gridW : Grid := (dfsRun 3 3 [] rngZero true (0, 0) 100).1

/-- The protected region of a 9×9 maze, as `_generate_pattern_42`
computes it; used by the witnesses. -/
def pattern9 : List Pos :=
  [(1, 2), (1, 3), (1, 4), (2, 4), (3, 4), (3, 5), (3, 6),
   (5, 2), (5, 4), (5, 5), (5, 6), (6, 2), (6, 4), (6, 6),
   (7, 2), (7, 3), (7, 4), (7, 6)]

/-- A concrete generator state used by the witnesses. -/
def genW : MazeGen :=
  { width := 3, height := 3, entry := (0, 0), mazeExit := (2, 2), seed := 1,
    outputFile := "maze.txt", perfect := true, pattern42 := [],
    maze := some gridW, path := [] }

/-- Shape invariant of the Prim frontier: every candidate edge
`(cx, cy, nx, ny, w, ow)` pairs a cell with a cardinal neighbor via a
`DIRECTIONS` entry. -/
def FrontierShaped (s : PrimState) : Prop :=
  ∀ e ∈ s.frontier, ∃ dx dy,
    (dx, dy, e.2.2.2.2.1, e.2.2.2.2.2) ∈ DIRECTIONS ∧
    e.2.2.1 = e.1 + dx ∧ e.2.2.2.1 = e.2.1 + dy

/-- Pattern-safety of the DFS stack: stacked cells are never protected. -/
def StackSafe (pattern : List Pos) (s : DfsState) : Prop :=
  ∀ q ∈ s.stack, isNot42Pattern pattern q.1 q.2 = true

/-- Pattern-safety of the Prim frontier: both endpoints of every candidate
edge are outside the protected region. -/
def FrontierSafe (pattern : List Pos) (s : PrimState) : Prop :=
  ∀ e ∈ s.frontier, isNot42Pattern pattern e.1 e.2.1 = true ∧
    isNot42Pattern pattern e.2.2.1 e.2.2.2.1 = true

/-- Well-formedness of one queue/popped entry `(cost, pos, path)` of the
search: its path really walks from the start to `pos`, has `cost` edges,
repeats no cell, stays in bounds, and the best-known-cost map is at most
the index along it. -/
def EntryOk (width height : Int) (g : Grid) (start : Pos)
    (dist : Pos → Option Nat) (e : DijEntry) : Prop :=
  pathOk (stepOpen width height g) start e.2.1 e.2.2 = true ∧
  e.2.2.length = e.1 + 1 ∧
  e.2.2.Nodup ∧
  (∀ q ∈ e.2.2, ∃ dq, dist q = some dq ∧ dq ≤ e.1) ∧
  (∀ q ∈ e.2.2, inGridB width height q = true)

/-- The search-loop invariant: entries are well formed; every best-known
cost is carried by a queue or popped entry; popped costs never exceed
queued ones; a popped entry at its final cost has relaxed all its open
neighbors; the start keeps cost 0; the exit has never been popped. -/
def DijInv (width height : Int) (g : Grid) (start endP : Pos)
    (s : DijState) : Prop :=
  (∀ e ∈ s.pq ++ s.popped, EntryOk width height g start s.dist e) ∧
  (∀ v d, s.dist v = some d →
    (∃ e ∈ s.pq, e.2.1 = v ∧ e.1 = d) ∨ (∃ e ∈ s.popped, e.2.1 = v ∧ e.1 = d)) ∧
  (∀ e ∈ s.popped, ∀ e' ∈ s.pq, e.1 ≤ e'.1) ∧
  (∀ e ∈ s.popped, s.dist e.2.1 = some e.1 →
    ∀ n, stepOpen width height g e.2.1 n = true →
      ∃ dn, s.dist n = some dn ∧ dn ≤ e.1 + 1) ∧
  (s.dist start = some 0) ∧
  (∀ e ∈ s.popped, e.2.1 ≠ endP)

/-- Capped total of the best-known-cost map over the grid, the core of the
termination measure: absent entries count as the cell total. -/
def distCapSum (width height : Int) (d : Pos → Option Nat) : Nat :=
  ((allCells width height).map (fun v =>
    match d v with
    | some x => min x ((width * height).toNat)
    | none => (width * height).toNat)).sum

/-- Termination measure of the search loop: queued entries plus the
capped total of best-known costs, the latter weighted so that one push
(which strictly lowers one best-known cost) outweighs the queue growth. -/
def dijPhi (width height : Int) (s : DijState) : Nat :=
  5 * distCapSum width height s.dist + s.pq.length

/-- A fully walled grid: no carving has opened any wall. -/
def gridFull : Grid := fun _ => Cell.mkInit

/-- A generator state carrying a fully walled maze, whose exit is
therefore unreachable from its entry; used by the witnesses. -/
def genA : MazeGen := { genW with maze := some gridFull }

/-! ## Theorems -/

/-- C1: the claim asserts that for `3 ≤ W, H` with `W ≤ 8 ∨ H ≤ 8` a
generator can be constructed and a perfect carve yields `W·H − 1`
wall-removal events; but on such grids — concretely, the claim's own 3×3
scenario — `_validate_inputs` accepts the parameters and yet `__init__`
raises, because it unconditionally calls `_generate_pattern_42`, which
fails whenever `width ≤ 8` or `height ≤ 8`.  Construction never succeeds,
so no carve can run. -/
theorem c1_small_grid_construction_raises :
    validateInputs 3 3 (0, 0) (2, 2) (some 1) "maze.txt" true = Except.ok () ∧
    mazeGenInit 3 3 (0, 0) (2, 2) "maze.txt" true (some 1) =
      Except.error "Cannot generate 42 pattern, maze too small!" :=
  ⟨rfl, rfl⟩

/-- C3: the claim asserts construction succeeds for every non-negative
seed, including 0, and that an omitted seed is drawn at construction; but
`self.seed = seed if seed else self.seed` reads the not-yet-assigned
attribute whenever the seed is falsy, so seed `0` (and an explicit `None`)
raises `AttributeError` even though `_validate_inputs` accepted it.  A
negative seed is rejected with the documented `ValueError`. -/
theorem c3_seed_zero_raises_attribute_error :
    validateInputs 9 9 (0, 0) (8, 8) (some 0) "maze.txt" true = Except.ok () ∧
    mazeGenInit 9 9 (0, 0) (8, 8) "maze.txt" true (some 0) =
      Except.error "AttributeError: 'MazeGenerator' object has no attribute 'seed'" ∧
    mazeGenInit 9 9 (0, 0) (8, 8) "maze.txt" true none =
      Except.error "AttributeError: 'MazeGenerator' object has no attribute 'seed'" ∧
    mazeGenInit 9 9 (0, 0) (8, 8) "maze.txt" true (some (-5)) =
      Except.error "Seed value must be greater than 0!" :=
  ⟨rfl, rfl, rfl, rfl⟩

/-- C6: for a 9×9 grid the pattern anchor is `(1, 2)` and the protected
region is exactly the 18 claimed coordinates; construction succeeds with
entry `(0, 0)` and exit `(8, 8)`, and fails with the pattern-violation
error when the entry is `(1, 2)`. -/
theorem c6_pattern_nine_by_nine :
    patternAnchor 9 9 = ((1 : Int), (2 : Int)) ∧
    generatePattern42 9 9 (0, 0) (8, 8) =
      Except.ok [(1, 2), (1, 3), (1, 4), (2, 4), (3, 4), (3, 5), (3, 6),
                 (5, 2), (5, 4), (5, 5), (5, 6), (6, 2), (6, 4), (6, 6),
                 (7, 2), (7, 3), (7, 4), (7, 6)] ∧
    (mazeGenInit 9 9 (0, 0) (8, 8) "maze.txt" true (some 1)).isOk = true ∧
    mazeGenInit 9 9 (1, 2) (8, 8) "maze.txt" true (some 1) =
      Except.error "Entry point is inside 42 pattern!" :=
  ⟨rfl, rfl, rfl, rfl⟩

/-- C9 counterexample: construction with an empty output identifier does
NOT fail — `_validate_inputs` only checks `isinstance(output_file, str)`,
which an empty string satisfies. -/
theorem c9_empty_output_accepted_counterexample :
    (mazeGenInit 9 9 (0, 0) (8, 8) "" true (some 1)).isOk = true := rfl

/-- C9 (amended): construction with an empty string as the output
identifier succeeds — the validator only rejects a non-string output
identifier; and construction never partially succeeds: whenever validation
fails, `__init__` propagates that error and yields no instance. -/
theorem c9_output_identifier_validation :
    (mazeGenInit 9 9 (0, 0) (8, 8) "" true (some 1)).isOk = true ∧
    (∀ width height entry mazeExit seed outputFile perfect m,
      validateInputs width height entry mazeExit seed outputFile perfect =
        Except.error m →
      mazeGenInit width height entry mazeExit outputFile perfect seed =
        Except.error m) := by
  refine ⟨rfl, ?_⟩
  intro width height entry mazeExit seed outputFile perfect m hval
  simp [mazeGenInit, hval, Bind.bind, Except.bind]

/-- C9 witness: the no-partial-construction clause applied at a concrete
validation failure (equal entry and exit). -/
theorem c9_output_identifier_validation_witness :
    validateInputs 3 3 (0, 0) (0, 0) none "f" true =
      Except.error "Entry and exit should be different cells" ∧
    mazeGenInit 3 3 (0, 0) (0, 0) "f" true none =
      Except.error "Entry and exit should be different cells" :=
  ⟨rfl, c9_output_identifier_validation.2 3 3 (0, 0) (0, 0) none "f" true _ rfl⟩

/-- C10: after `write_output`, the maze is discarded (`gen.maze = []`)
while the entry, exit, path and every configuration field are unchanged;
a subsequent `find_shortest_path` then takes the no-maze branch and
leaves the whole state — in particular the stored path — unmodified. -/
theorem c10_write_output_discards_maze (gen : MazeGen) (fuel : Nat) :
    (writeOutput gen).2.maze = none ∧
    (writeOutput gen).2.entry = gen.entry ∧
    (writeOutput gen).2.mazeExit = gen.mazeExit ∧
    (writeOutput gen).2.path = gen.path ∧
    (writeOutput gen).2.width = gen.width ∧
    (writeOutput gen).2.height = gen.height ∧
    (writeOutput gen).2.seed = gen.seed ∧
    (writeOutput gen).2.outputFile = gen.outputFile ∧
    (writeOutput gen).2.perfect = gen.perfect ∧
    (writeOutput gen).2.pattern42 = gen.pattern42 ∧
    findShortestPath (writeOutput gen).2 fuel = (writeOutput gen).2 :=
  ⟨rfl, rfl, rfl, rfl, rfl, rfl, rfl, rfl, rfl, rfl, rfl⟩

/-- C10 witness: the frame conditions at a concrete generator state. -/
theorem c10_write_output_discards_maze_witness :
    (writeOutput genW).2.maze = none ∧
    (writeOutput genW).2.path = genW.path ∧
    findShortestPath (writeOutput genW).2 100 = (writeOutput genW).2 :=
  ⟨(c10_write_output_discards_maze genW 100).1,
   (c10_write_output_discards_maze genW 100).2.2.2.1,
   (c10_write_output_discards_maze genW 100).2.2.2.2.2.2.2.2.2.2⟩

lemma hexDigit_ne_newline (n : Nat) : hexDigit n ≠ '\n' := by
  unfold hexDigit
  rcases Nat.lt_or_ge n 16 with h | h
  · interval_cases n <;> decide
  · rw [List.getD_eq_default]
    · decide
    · simpa using h

lemma decode_hexDigit (n : Nat) (h : n < 16) : decodeHexDigit (hexDigit n) = n := by
  interval_cases n <;> decide

lemma splitOnNewline_no_newline (cs : List Char) (h : '\n' ∉ cs) :
    splitOnNewline cs = [cs] := by
  induction cs with
  | nil => rfl
  | cons c rest ih =>
    simp only [List.mem_cons, not_or] at h
    simp [splitOnNewline, ih h.2, Ne.symm h.1]

lemma splitOnNewline_glue_step (a rest : List Char) (ha : '\n' ∉ a) :
    splitOnNewline (a ++ '\n' :: rest) = a :: splitOnNewline rest := by
  induction a with
  | nil =>
    simp [splitOnNewline]
  | cons c cs ih =>
    simp only [List.mem_cons, not_or] at ha
    simp [splitOnNewline, ih ha.2, Ne.symm ha.1]

lemma splitOnNewline_glue (a : List Char) (as : List (List Char))
    (ha : '\n' ∉ a) (has : ∀ cs ∈ as, '\n' ∉ cs) :
    splitOnNewline (a ++ (as.map (fun cs => '\n' :: cs)).flatten) = a :: as := by
  induction as generalizing a with
  | nil => simpa using splitOnNewline_no_newline a ha
  | cons b bs ih =>
    have hb : '\n' ∉ b := has b (by simp)
    have hbs : ∀ cs ∈ bs, '\n' ∉ cs := fun cs hc => has cs (by simp [hc])
    simp only [List.map_cons, List.flatten_cons, List.cons_append]
    rw [splitOnNewline_glue_step a _ ha, ih b hb hbs]

lemma foldl_append_data (l : List String) (acc : String) :
    (l.foldl (fun r s => r ++ s) acc).data = acc.data ++ (l.map String.data).flatten := by
  induction l generalizing acc with
  | nil => simp
  | cons a as ih => simp [List.foldl_cons, ih]

lemma join_data (l : List String) :
    (String.join l).data = (l.map String.data).flatten := by
  simpa [String.join] using foldl_append_data l ""

lemma intercalate_go_data (s acc : String) (l : List String) :
    (String.intercalate.go acc s l).data =
      acc.data ++ (l.map (fun b => s.data ++ b.data)).flatten := by
  induction l generalizing acc with
  | nil => simp [String.intercalate.go]
  | cons a as ih => simp [String.intercalate.go, ih]

lemma intercalate_data (s a : String) (as : List String) :
    (String.intercalate s (a :: as)).data =
      a.data ++ (as.map (fun b => s.data ++ b.data)).flatten := by
  simp [String.intercalate, intercalate_go_data]

lemma mem_intRange {a lo hi : Int} : a ∈ intRange lo hi ↔ lo ≤ a ∧ a < hi := by
  unfold intRange
  rw [List.mem_map]
  constructor
  · rintro ⟨i, hmem, rfl⟩
    rw [List.mem_range] at hmem
    omega
  · rintro ⟨h1, h2⟩
    refine ⟨(a - lo).toNat, ?_, ?_⟩
    · rw [List.mem_range]
      omega
    · omega

lemma length_intRange (lo hi : Int) : (intRange lo hi).length = (hi - lo).toNat := by
  unfold intRange
  rw [List.length_map, List.length_range]

lemma mem_allCells {width height : Int} {p : Pos} :
    p ∈ allCells width height ↔ inGridB width height p = true := by
  unfold allCells inGridB
  cases p with
  | mk x y =>
    simp only [List.mem_flatMap, List.mem_map, decide_eq_true_eq]
    constructor
    · rintro ⟨y', hy', x', hx', h⟩
      cases h
      rw [mem_intRange] at hy' hx'
      exact ⟨hx'.1, hx'.2, hy'.1, hy'.2⟩
    · rintro ⟨h1, h2, h3, h4⟩
      exact ⟨y, mem_intRange.mpr ⟨h3, h4⟩, x, mem_intRange.mpr ⟨h1, h2⟩, rfl⟩

/-- The row of hex characters for line `y`. -/
lemma row_data (width : Int) (g : Grid) (y : Int) :
    (String.join ((intRange 0 width).map (fun x => (g (x, y)).toHex))).data =
      (intRange 0 width).map (fun x => hexDigit (g (x, y)).walls) := by
  rw [join_data, List.map_map]
  induction intRange 0 width with
  | nil => rfl
  | cons a as ih => simp_all [Cell.toHex]

lemma decode_row (width height : Int) (g : Grid)
    (hwalls : ∀ p : Pos, inGridB width height p = true → (g p).walls < 16)
    (y : Int) (hy : 0 ≤ y ∧ y < height) :
    (intRange 0 width).map (decodeHexDigit ∘ fun x => hexDigit (g (x, y)).walls) =
      (intRange 0 width).map (fun x => (g (x, y)).walls) := by
  apply List.map_congr_left
  intro x hx
  rw [mem_intRange] at hx
  exact decode_hexDigit _ (hwalls (x, y) (by simp [inGridB]; omega))


/-- C7: encoding any grid whose cells hold 4-bit wall states (as every
grid reachable by construction, carving and braiding does) to the
hex-digit text form and decoding that text back yields the identical
per-cell wall state for every cell. -/
theorem c7_roundtrip (width height : Int) (g : Grid)
    (hw : 0 < width) (hh : 0 < height)
    (hwalls : (allCells width height).all (fun p => decide ((g p).walls < 16)) = true) :
    decodeMaze (mazeToStr width height g) = wallMatrix width height g := by
  have hwalls' : ∀ p : Pos, inGridB width height p = true → (g p).walls < 16 := by
    intro p hp
    have := List.all_eq_true.mp hwalls p (mem_allCells.mpr hp)
    simpa using this
  obtain ⟨y0, ys, hys⟩ : ∃ y0 ys, intRange 0 height = y0 :: ys := by
    cases h : intRange 0 height with
    | nil =>
      exfalso
      have hl := length_intRange 0 height
      rw [h] at hl
      simp at hl
      omega
    | cons a as => exact ⟨a, as, rfl⟩
  have hymem : ∀ y ∈ y0 :: ys, 0 ≤ y ∧ y < height := by
    intro y hy
    rw [← hys, mem_intRange] at hy
    exact hy
  set L := fun y => (intRange 0 width).map (fun x => hexDigit (g (x, y)).walls) with hL
  set rowF := fun y => String.join ((intRange 0 width).map (fun x => (g (x, y)).toHex)) with hrowF
  have hnl : ∀ y, '\n' ∉ L y := by
    intro y hmem
    rw [hL, List.mem_map] at hmem
    obtain ⟨x, _, hx⟩ := hmem
    exact hexDigit_ne_newline _ hx
  have hstr : (String.intercalate "\n" (rowF y0 :: ys.map rowF)).data =
      L y0 ++ ((ys.map L).map (fun cs => '\n' :: cs)).flatten := by
    rw [intercalate_data]
    have h0 : (rowF y0).data = L y0 := row_data width g y0
    rw [h0]
    congr 1
    rw [List.map_map, List.map_map]
    refine congrArg List.flatten ?_
    apply List.map_congr_left
    intro y _
    simp only [Function.comp]
    rw [row_data]
    simp [hL]
  have hside : ∀ cs ∈ ys.map L, '\n' ∉ cs := by
    intro cs hcs
    rw [List.mem_map] at hcs
    obtain ⟨y, _, hcseq⟩ := hcs
    rw [← hcseq]
    exact hnl y
  unfold decodeMaze mazeToStr wallMatrix
  rw [hys, List.map_cons]
  simp only [String.toList]
  rw [hstr, splitOnNewline_glue (L y0) (ys.map L) (hnl y0) hside]
  rw [List.map_cons, List.map_cons, List.map_map]
  congr 1
  · exact decode_row width height g hwalls' y0 (hymem y0 (by simp))
  · rw [List.map_map]
    apply List.map_congr_left
    intro y hy
    show List.map decodeHexDigit
        (List.map (fun x => hexDigit (g (x, y)).walls) (intRange 0 width)) = _
    rw [List.map_map]
    exact decode_row width height g hwalls' y (hymem y (by simp [hy]))

/-- C7 witness: the round trip at a concrete carved 3×3 maze. -/
theorem c7_roundtrip_witness :
    ((allCells 3 3).all (fun p => decide ((gridW p).walls < 16)) = true) ∧
    decodeMaze (mazeToStr 3 3 gridW) = wallMatrix 3 3 gridW :=
  ⟨by decide, c7_roundtrip 3 3 gridW (by decide) (by decide) (by decide)⟩

/-- The four wall bits. -/
def IsWallBit (w : Nat) : Prop := w = 1 ∨ w = 2 ∨ w = 4 ∨ w = 8

lemma hasWall_removeWall (c : Cell) (w w' : Nat)
    (hw : IsWallBit w) (hw' : IsWallBit w') :
    (c.removeWall w).hasWall w' = if w' = w then false else c.hasWall w' := by
  unfold Cell.removeWall Cell.hasWall
  simp only
  rw [Nat.land_assoc]
  by_cases h : w' = w
  · subst h
    have h0 : (15 ^^^ w') &&& w' = 0 := by
      rcases hw' with rfl | rfl | rfl | rfl <;> decide
    rw [h0, if_pos rfl]
    simp
  · rw [if_neg h]
    have h1 : (15 ^^^ w) &&& w' = w' := by
      rcases hw with rfl | rfl | rfl | rfl <;>
        rcases hw' with rfl | rfl | rfl | rfl <;>
          first
          | decide
          | exact absurd rfl h
    rw [h1]

lemma hasWall_setVisited (c : Cell) (b : Bool) (w : Nat) :
    (c.setVisited b).hasWall w = c.hasWall w := rfl

lemma setCell_read (g : Grid) (p : Pos) (c : Cell) (q : Pos) :
    setCell g p c q = if q = p then c else g q := rfl

lemma hasWall_carve (g : Grid) (a b : Pos) (w ow : Nat) (q : Pos) (w' : Nat)
    (hw : IsWallBit w) (how : IsWallBit ow) (hw' : IsWallBit w')
    (hab : a ≠ b) :
    (carveWallPair g a b w ow q).hasWall w' =
      if q = b then (if w' = ow then false else (g b).hasWall w')
      else if q = a then (if w' = w then false else (g a).hasWall w')
      else (g q).hasWall w' := by
  have hba : ¬ (b = a) := fun h => hab h.symm
  unfold carveWallPair
  simp only [setCell_read]
  by_cases hqb : q = b
  · subst hqb
    simp only [if_pos rfl, if_neg hba]
    exact hasWall_removeWall _ ow w' how hw'
  · by_cases hqa : q = a
    · subst hqa
      simp only [if_neg hqb, if_pos rfl]
      exact hasWall_removeWall _ w w' hw hw'
    · simp only [if_neg hqb, if_neg hqa]

lemma dir_wallbits (dx dy : Int) (w ow : Nat)
    (hd : (dx, dy, w, ow) ∈ DIRECTIONS) :
    IsWallBit w ∧ IsWallBit ow ∧ ¬(dx = 0 ∧ dy = 0) := by
  fin_cases hd <;> simp [IsWallBit, Cell.NORTH, Cell.EAST, Cell.SOUTH, Cell.WEST]

lemma hasWall_carve_or (g : Grid) (a b : Pos) (w ow : Nat) (q : Pos) (w' : Nat)
    (hw : IsWallBit w) (how : IsWallBit ow) (hw' : IsWallBit w')
    (hab : a ≠ b) :
    (carveWallPair g a b w ow q).hasWall w' =
      if (q = b ∧ w' = ow) ∨ (q = a ∧ w' = w) then false
      else (g q).hasWall w' := by
  rw [hasWall_carve g a b w ow q w' hw how hw' hab]
  by_cases h1 : q = b
  · have hba : ¬ (b = a) := fun h => hab h.symm
    by_cases h3 : w' = ow <;> simp [h1, h3, hba]
  · by_cases h2 : q = a
    · by_cases h4 : w' = w <;> simp [h1, h2, h4, hab]
    · simp [h1, h2]

lemma carve_changed_iff (a : Pos) (dx dy : Int) (w ow : Nat)
    (hd : (dx, dy, w, ow) ∈ DIRECTIONS)
    (x y dx' dy' : Int) (w' ow' : Nat)
    (hd' : (dx', dy', w', ow') ∈ DIRECTIONS) :
    ((((x, y) : Pos) = (a.1 + dx, a.2 + dy) ∧ w' = ow) ∨ (((x, y) : Pos) = a ∧ w' = w)) ↔
    ((((x + dx', y + dy') : Pos) = (a.1 + dx, a.2 + dy) ∧ ow' = ow) ∨
      (((x + dx', y + dy') : Pos) = a ∧ ow' = w)) := by
  obtain ⟨a1, a2⟩ := a
  fin_cases hd <;> fin_cases hd' <;>
    simp only [Cell.NORTH, Cell.EAST, Cell.SOUTH, Cell.WEST] <;>
    norm_num [Prod.mk.injEq] <;> omega

lemma WallSymP_carve (width height : Int) (g : Grid) (a : Pos)
    (dx dy : Int) (w ow : Nat) (hd : (dx, dy, w, ow) ∈ DIRECTIONS)
    (hsym : WallSymP width height g) :
    WallSymP width height (carveWallPair g a (a.1 + dx, a.2 + dy) w ow) := by
  obtain ⟨hwb, howb, hd0⟩ := dir_wallbits dx dy w ow hd
  have hab : a ≠ ((a.1 + dx, a.2 + dy) : Pos) := by
    intro h
    obtain ⟨a1, a2⟩ := a
    simp only [Prod.mk.injEq] at h
    exact hd0 ⟨by omega, by omega⟩
  intro x y dx' dy' w' ow' hd' hx hx'
  obtain ⟨hwb', howb', hd0'⟩ := dir_wallbits dx' dy' w' ow' hd'
  rw [hasWall_carve_or g a _ w ow (x, y) w' hwb howb hwb' hab]
  rw [hasWall_carve_or g a _ w ow (x + dx', y + dy') ow' hwb howb howb' hab]
  have hiff := carve_changed_iff a dx dy w ow hd x y dx' dy' w' ow' hd'
  by_cases hc : (((x, y) : Pos) = (a.1 + dx, a.2 + dy) ∧ w' = ow) ∨ (((x, y) : Pos) = a ∧ w' = w)
  · rw [if_pos hc, if_pos (hiff.mp hc)]
  · rw [if_neg hc, if_neg (fun h => hc (hiff.mpr h))]
    exact hsym x y dx' dy' w' ow' hd' hx hx'

lemma hasWall_visit (g : Grid) (p : Pos) (b : Bool) (q : Pos) (w' : Nat) :
    (setCell g p ((g p).setVisited b) q).hasWall w' = (g q).hasWall w' := by
  rw [setCell_read]
  by_cases h : q = p
  · rw [if_pos h, h]
    rfl
  · rw [if_neg h]

lemma WallSymP_visit (width height : Int) (g : Grid) (p : Pos) (b : Bool)
    (hsym : WallSymP width height g) :
    WallSymP width height (setCell g p ((g p).setVisited b)) := by
  intro x y dx dy w ow hd hx hx'
  rw [hasWall_visit, hasWall_visit]
  exact hsym x y dx dy w ow hd hx hx'

lemma getD_mem {α : Type} (l : List α) (n : Nat) (d : α) (h : n < l.length) :
    l.getD n d ∈ l := by
  rw [List.getD_eq_getElem l d h]
  exact List.getElem_mem h

lemma WallSymP_generateGrid (width height : Int) :
    WallSymP width height generateGrid := by
  intro x y dx dy w ow hd hx hx'
  obtain ⟨hwb, howb, _⟩ := dir_wallbits dx dy w ow hd
  show Cell.mkInit.hasWall w = Cell.mkInit.hasWall ow
  rcases hwb with rfl | rfl | rfl | rfl <;>
    rcases howb with rfl | rfl | rfl | rfl <;> decide

lemma mem_dfsNeighbors {width height : Int} {pattern : List Pos} {g : Grid}
    {x y : Int} {e : Int × Int × Nat × Nat}
    (he : e ∈ dfsNeighbors width height pattern g x y) :
    ∃ dx dy, (dx, dy, e.2.2.1, e.2.2.2) ∈ DIRECTIONS ∧
      e.1 = x + dx ∧ e.2.1 = y + dy ∧
      inMazeBounds width height pattern e.1 e.2.1 = true ∧
      (g (e.1, e.2.1)).visitedFlag = false := by
  unfold dfsNeighbors at he
  rw [List.mem_filterMap] at he
  obtain ⟨⟨dx, dy, w, ow⟩, hd, hsome⟩ := he
  by_cases hc : (inMazeBounds width height pattern (x + dx) (y + dy) &&
      !(g (x + dx, y + dy)).visitedFlag) = true
  · simp only [hc, if_true] at hsome
    cases hsome
    simp only [Bool.and_eq_true, Bool.not_eq_true'] at hc
    exact ⟨dx, dy, hd, rfl, rfl, hc.1, hc.2⟩
  · simp only [Bool.not_eq_true] at hc
    simp only [hc, if_false] at hsome
    cases hsome

lemma WallSymP_dfsStep (width height : Int) (pattern : List Pos) (rng : Rng)
    (s : DfsState) (hsym : WallSymP width height s.grid) :
    WallSymP width height (dfsStep width height pattern rng s).grid := by
  unfold dfsStep
  match hstack : s.stack with
  | [] => exact hsym
  | (x, y) :: rest =>
    simp only
    match hn : dfsNeighbors width height pattern s.grid x y with
    | [] => exact hsym
    | e0 :: es =>
      simp only
      have hlen : rng s.k % (e0 :: es).length < (e0 :: es).length :=
        Nat.mod_lt _ (by simp)
      have hmem : (e0 :: es).getD (rng s.k % (e0 :: es).length) (0, 0, 0, 0) ∈ e0 :: es :=
        getD_mem _ _ _ hlen
    -- the chosen neighbor has DIRECTIONS shape
      rw [← hn] at hmem
      obtain ⟨dx, dy, hd, hx1, hy1, _, _⟩ := mem_dfsNeighbors hmem
      rw [← hn]
      match hget : (dfsNeighbors width height pattern s.grid x y).getD
          (rng s.k % (dfsNeighbors width height pattern s.grid x y).length) (0, 0, 0, 0) with
      | (nx, ny, w, ow) =>
        simp only
        rw [hget] at hx1 hy1 hd
        simp only at hx1 hy1 hd
        apply WallSymP_visit
        have : ((nx, ny) : Pos) = (((x, y) : Pos).1 + dx, ((x, y) : Pos).2 + dy) := by
          simp [hx1, hy1]
        rw [this]
        exact WallSymP_carve width height s.grid (x, y) dx dy w ow hd hsym

lemma mem_addToFrontier {width height : Int} {pattern : List Pos} {g : Grid}
    {x y : Int} {e : Int × Int × Int × Int × Nat × Nat}
    (he : e ∈ addToFrontier width height pattern g x y) :
    ∃ dx dy, (dx, dy, e.2.2.2.2.1, e.2.2.2.2.2) ∈ DIRECTIONS ∧
      e.1 = x ∧ e.2.1 = y ∧ e.2.2.1 = x + dx ∧ e.2.2.2.1 = y + dy ∧
      inMazeBounds width height pattern e.2.2.1 e.2.2.2.1 = true ∧
      (g (e.2.2.1, e.2.2.2.1)).visitedFlag = false := by
  unfold addToFrontier at he
  rw [List.mem_filterMap] at he
  obtain ⟨⟨dx, dy, w, ow⟩, hd, hsome⟩ := he
  by_cases hc : (inMazeBounds width height pattern (x + dx) (y + dy) &&
      !(g (x + dx, y + dy)).visitedFlag) = true
  · simp only [hc, if_true] at hsome
    cases hsome
    simp only [Bool.and_eq_true, Bool.not_eq_true'] at hc
    exact ⟨dx, dy, hd, rfl, rfl, rfl, rfl, hc.1, hc.2⟩
  · simp only [Bool.not_eq_true] at hc
    simp only [hc, if_false] at hsome
    cases hsome

lemma FrontierShaped_primStep (width height : Int) (pattern : List Pos)
    (rng : Rng) (s : PrimState) (hsh : FrontierShaped s) :
    FrontierShaped (primStep width height pattern rng s) := by
  obtain ⟨g, fr, k, ev⟩ := s
  unfold FrontierShaped at hsh
  simp only at hsh
  cases fr with
  | nil => exact hsh
  | cons f0 fs =>
    unfold primStep
    simp only
    match hget : (f0 :: fs).getD (rng k % (f0 :: fs).length) (0, 0, 0, 0, 0, 0),
        herase : (f0 :: fs).eraseIdx (rng k % (f0 :: fs).length) with
    | (cx, cy, nx, ny, w, ow), rest =>
      have hrest : ∀ e ∈ rest, e ∈ f0 :: fs := by
        intro e hin
        rw [← herase] at hin
        exact (List.eraseIdx_sublist _ _).subset hin
      by_cases hv : (g (nx, ny)).visitedFlag
      · rw [hv]
        simp only [Bool.not_true, Bool.false_eq_true, if_false]
        intro e hin
        exact hsh e (hrest e hin)
      · simp only [Bool.not_eq_true] at hv
        rw [hv]
        simp only [Bool.not_false, if_true]
        intro e hin
        simp only [List.mem_append] at hin
        rcases hin with hin | hin
        · exact hsh e (hrest e hin)
        · obtain ⟨dx, dy, hd, _, _, h3, h4, _, _⟩ := mem_addToFrontier hin
          exact ⟨dx, dy, hd, by omega, by omega⟩

lemma WallSymP_primStep (width height : Int) (pattern : List Pos)
    (rng : Rng) (s : PrimState) (hsh : FrontierShaped s)
    (hsym : WallSymP width height s.grid) :
    WallSymP width height (primStep width height pattern rng s).grid := by
  obtain ⟨g, fr, k, ev⟩ := s
  unfold FrontierShaped at hsh
  simp only at hsh hsym
  cases fr with
  | nil => exact hsym
  | cons f0 fs =>
    unfold primStep
    simp only
    have hlen : rng k % (f0 :: fs).length < (f0 :: fs).length :=
      Nat.mod_lt _ (by simp)
    have hmem : (f0 :: fs).getD (rng k % (f0 :: fs).length) (0, 0, 0, 0, 0, 0) ∈ f0 :: fs :=
      getD_mem _ _ _ hlen
    obtain ⟨dx, dy, hd, hx1, hy1⟩ := hsh _ hmem
    match hget : (f0 :: fs).getD (rng k % (f0 :: fs).length) (0, 0, 0, 0, 0, 0),
        herase : (f0 :: fs).eraseIdx (rng k % (f0 :: fs).length) with
    | (cx, cy, nx, ny, w, ow), rest =>
      rw [hget] at hx1 hy1 hd
      simp only at hx1 hy1 hd
      by_cases hv : (g (nx, ny)).visitedFlag
      · rw [hv]
        simp only [Bool.not_true, Bool.false_eq_true, if_false]
        exact hsym
      · simp only [Bool.not_eq_true] at hv
        rw [hv]
        simp only [Bool.not_false, if_true]
        apply WallSymP_visit
        have heq : ((nx, ny) : Pos) = (((cx, cy) : Pos).1 + dx, ((cx, cy) : Pos).2 + dy) := by
          simp [hx1, hy1]
        rw [heq]
        exact WallSymP_carve width height g (cx, cy) dx dy w ow hd hsym

lemma mem_braidNeighbors {width height : Int} {pattern : List Pos}
    {x y : Int} {e : Int × Int × Nat × Nat}
    (he : e ∈ braidNeighbors width height pattern x y) :
    ∃ dx dy, (dx, dy, e.2.2.1, e.2.2.2) ∈ DIRECTIONS ∧
      e.1 = x + dx ∧ e.2.1 = y + dy ∧
      inMazeBounds width height pattern e.1 e.2.1 = true := by
  unfold braidNeighbors at he
  rw [List.mem_filterMap] at he
  obtain ⟨⟨dx, dy, w, ow⟩, hd, hsome⟩ := he
  by_cases hc : inMazeBounds width height pattern (x + dx) (y + dy) = true
  · simp only [hc, if_true] at hsome
    cases hsome
    exact ⟨dx, dy, hd, rfl, rfl, hc⟩
  · simp only [Bool.not_eq_true] at hc
    simp only [hc, if_false] at hsome
    cases hsome

lemma WallSymP_braidCell (width height : Int) (pattern : List Pos)
    (rng : Rng) (x y : Int) (st : Grid × Nat)
    (hsym : WallSymP width height st.1) :
    WallSymP width height (braidCell width height pattern rng x y st).1 := by
  obtain ⟨g, k⟩ := st
  unfold braidCell
  simp only at hsym ⊢
  by_cases hp : isNot42Pattern pattern x y
  · rw [hp]
    simp only [Bool.not_true, Bool.false_eq_true, if_false]
    by_cases hwc : wallCount (g (x, y)) = 3
    · simp only [hwc, if_true]
      match hn : braidNeighbors width height pattern x y with
      | [] => exact hsym
      | e0 :: es =>
        simp only
        have hlen : rng k % (e0 :: es).length < (e0 :: es).length :=
          Nat.mod_lt _ (by simp)
        have hmem : (e0 :: es).getD (rng k % (e0 :: es).length) (0, 0, 0, 0) ∈ e0 :: es :=
          getD_mem _ _ _ hlen
        rw [← hn] at hmem
        obtain ⟨dx, dy, hd, hx1, hy1, _⟩ := mem_braidNeighbors hmem
        rw [← hn]
        match hget : (braidNeighbors width height pattern x y).getD
            (rng k % (braidNeighbors width height pattern x y).length) (0, 0, 0, 0) with
        | (nx, ny, w, ow) =>
          simp only
          rw [hget] at hx1 hy1 hd
          simp only at hx1 hy1 hd
          have heq : ((nx, ny) : Pos) = (((x, y) : Pos).1 + dx, ((x, y) : Pos).2 + dy) := by
            simp [hx1, hy1]
          rw [heq]
          exact WallSymP_carve width height g (x, y) dx dy w ow hd hsym
    · simp only [hwc, if_false]
      exact hsym
  · simp only [Bool.not_eq_true] at hp
    rw [hp]
    simp only [Bool.not_false, if_true]
    exact hsym

lemma WallSymP_braidRow (width height : Int) (pattern : List Pos) (rng : Rng)
    (y : Int) (l : List Int) (st : Grid × Nat)
    (hsym : WallSymP width height st.1) :
    WallSymP width height
      ((l.foldl (fun st' x => braidCell width height pattern rng x y st') st)).1 := by
  induction l generalizing st with
  | nil => exact hsym
  | cons a as ih =>
    rw [List.foldl_cons]
    exact ih _ (WallSymP_braidCell width height pattern rng a y st hsym)

lemma WallSymP_braid (width height : Int) (pattern : List Pos) (rng : Rng)
    (g : Grid) (hsym : WallSymP width height g) :
    WallSymP width height (braidDeadEnds width height pattern rng g).1 := by
  unfold braidDeadEnds
  generalize (intRange 1 (height - 1)) = rows
  have : ∀ (rows : List Int) (st : Grid × Nat), WallSymP width height st.1 →
      WallSymP width height
        ((rows.foldl (fun st y =>
          (intRange 1 (width - 1)).foldl
            (fun st' x => braidCell width height pattern rng x y st') st) st)).1 := by
    intro rows
    induction rows with
    | nil => intro st h; exact h
    | cons r rs ih =>
      intro st h
      rw [List.foldl_cons]
      exact ih _ (WallSymP_braidRow width height pattern rng r _ st h)
  exact this rows (g, 0) hsym

lemma WallSymP_dfsLoop (width height : Int) (pattern : List Pos) (rng : Rng)
    (fuel : Nat) (s : DfsState) (hsym : WallSymP width height s.grid) :
    WallSymP width height (dfsLoop width height pattern rng fuel s).grid := by
  induction fuel generalizing s with
  | zero => exact hsym
  | succ n ih =>
    unfold dfsLoop
    match s.stack with
    | [] => exact hsym
    | _ :: _ => exact ih _ (WallSymP_dfsStep width height pattern rng s hsym)

lemma WallSymP_dfsInit (width height : Int) (entry : Pos) :
    WallSymP width height (dfsInit entry).grid :=
  WallSymP_visit width height generateGrid entry true
    (WallSymP_generateGrid width height)

lemma WallSymP_dfsRun (width height : Int) (pattern : List Pos) (rng : Rng)
    (perfect : Bool) (entry : Pos) (fuel : Nat) :
    WallSymP width height (dfsRun width height pattern rng perfect entry fuel).1 := by
  unfold dfsRun
  have h1 := WallSymP_dfsLoop width height pattern rng fuel (dfsInit entry)
    (WallSymP_dfsInit width height entry)
  cases perfect with
  | true => simpa using h1
  | false =>
    simp only [Bool.false_eq_true, if_false]
    exact WallSymP_braid width height pattern rng _ h1

lemma WallSymP_primLoop (width height : Int) (pattern : List Pos) (rng : Rng)
    (fuel : Nat) (s : PrimState) (hsh : FrontierShaped s)
    (hsym : WallSymP width height s.grid) :
    WallSymP width height (primLoop width height pattern rng fuel s).grid := by
  induction fuel generalizing s with
  | zero => exact hsym
  | succ n ih =>
    unfold primLoop
    match s.frontier with
    | [] => exact hsym
    | _ :: _ =>
      exact ih _ (FrontierShaped_primStep width height pattern rng s hsh)
        (WallSymP_primStep width height pattern rng s hsh hsym)

lemma FrontierShaped_primInit (width height : Int) (pattern : List Pos)
    (entry : Pos) : FrontierShaped (primInit width height pattern entry) := by
  intro e he
  obtain ⟨dx, dy, hd, _, _, h3, h4, _, _⟩ := mem_addToFrontier he
  exact ⟨dx, dy, hd, by omega, by omega⟩

lemma WallSymP_primRun (width height : Int) (pattern : List Pos) (rng : Rng)
    (perfect : Bool) (entry : Pos) (fuel : Nat) :
    WallSymP width height (primRun width height pattern rng perfect entry fuel).1 := by
  unfold primRun
  have h1 := WallSymP_primLoop width height pattern rng fuel
    (primInit width height pattern entry)
    (FrontierShaped_primInit width height pattern entry)
    (WallSymP_visit width height generateGrid entry true
      (WallSymP_generateGrid width height))
  cases perfect with
  | true => simpa using h1
  | false =>
    simp only [Bool.false_eq_true, if_false]
    exact WallSymP_braid width height pattern rng _ h1

/-- C4: every wall removal is mirrored.  The initial grid is symmetric,
each DFS step, Prim step (whose frontier is direction-shaped, as it is
from initialization on) and braid cell preserves symmetry, and therefore
after a complete `dfs()` or `prim()` run — braiding included when the
perfect flag is false — every in-bounds adjacent pair `(A, B)` agrees:
`A` lacks the wall facing `B` iff `B` lacks the wall facing `A`. -/
theorem c4_wall_symmetry (width height : Int) (pattern : List Pos) (rng : Rng) :
    WallSymP width height generateGrid ∧
    (∀ s : DfsState, WallSymP width height s.grid →
      WallSymP width height (dfsStep width height pattern rng s).grid) ∧
    (∀ s : PrimState, FrontierShaped s → WallSymP width height s.grid →
      WallSymP width height (primStep width height pattern rng s).grid) ∧
    (∀ g : Grid, WallSymP width height g →
      WallSymP width height (braidDeadEnds width height pattern rng g).1) ∧
    (∀ perfect entry fuel,
      WallSymP width height (dfsRun width height pattern rng perfect entry fuel).1) ∧
    (∀ perfect entry fuel,
      WallSymP width height (primRun width height pattern rng perfect entry fuel).1) :=
  ⟨WallSymP_generateGrid width height,
   fun s => WallSymP_dfsStep width height pattern rng s,
   fun s => WallSymP_primStep width height pattern rng s,
   fun g => WallSymP_braid width height pattern rng g,
   fun perfect entry fuel => WallSymP_dfsRun width height pattern rng perfect entry fuel,
   fun perfect entry fuel => WallSymP_primRun width height pattern rng perfect entry fuel⟩

/-- C4 witness: symmetry after a concrete DFS run and a concrete single
step, the step hypothesis discharged at the initial state. -/
theorem c4_wall_symmetry_witness :
    WallSymP 3 3 (dfsRun 3 3 [] rngZero true (0, 0) 100).1 ∧
    WallSymP 3 3 (dfsStep 3 3 [] rngZero (dfsInit (0, 0))).grid :=
  ⟨(c4_wall_symmetry 3 3 [] rngZero).2.2.2.2.1 true (0, 0) 100,
   (c4_wall_symmetry 3 3 [] rngZero).2.1 (dfsInit (0, 0))
     (WallSymP_dfsInit 3 3 (0, 0))⟩


lemma walls_carve_other (g : Grid) (a b : Pos) (w ow : Nat) (p : Pos)
    (ha : p ≠ a) (hb : p ≠ b) :
    (carveWallPair g a b w ow p).walls = (g p).walls := by
  unfold carveWallPair
  simp only [setCell_read, if_neg hb, if_neg ha]

lemma walls_visit (g : Grid) (p : Pos) (b : Bool) (q : Pos) :
    (setCell g p ((g p).setVisited b) q).walls = (g q).walls := by
  rw [setCell_read]
  by_cases h : q = p
  · rw [if_pos h, h]
    rfl
  · rw [if_neg h]

lemma isNot42_true_iff {pattern : List Pos} {x y : Int} :
    isNot42Pattern pattern x y = true ↔ ((x, y) : Pos) ∉ pattern := by
  unfold isNot42Pattern
  rw [List.all_eq_true]
  constructor
  · intro h hm
    have := h _ hm
    simp at this
  · intro h p hp
    simp only [decide_eq_true_eq]
    intro heq
    rw [heq] at h
    exact h hp

lemma inMazeBounds_notMem {width height : Int} {pattern : List Pos}
    {x y : Int} (h : inMazeBounds width height pattern x y = true) :
    ((x, y) : Pos) ∉ pattern := by
  unfold inMazeBounds at h
  rw [Bool.and_eq_true] at h
  exact isNot42_true_iff.mp h.2

lemma patternIntact_iff {pattern : List Pos} {g : Grid} :
    patternIntact pattern g = true ↔ ∀ p ∈ pattern, (g p).walls = 15 := by
  unfold patternIntact
  rw [List.all_eq_true]
  constructor
  · intro h p hp
    have := h p hp
    simpa using this
  · intro h p hp
    simpa using h p hp

lemma carve_patOk {pattern : List Pos} {g : Grid} {a b : Pos} {w ow : Nat}
    (hpa : a ∉ pattern) (hpb : b ∉ pattern)
    (hg : ∀ p ∈ pattern, (g p).walls = 15) :
    ∀ p ∈ pattern, ((carveWallPair g a b w ow) p).walls = 15 := by
  intro p hp
  rw [walls_carve_other g a b w ow p (fun h => hpa (h ▸ hp)) (fun h => hpb (h ▸ hp))]
  exact hg p hp

lemma dfsStep_patSafe (width height : Int) (pattern : List Pos) (rng : Rng)
    (s : DfsState) (hss : StackSafe pattern s)
    (hg : ∀ p ∈ pattern, (s.grid p).walls = 15) :
    StackSafe pattern (dfsStep width height pattern rng s) ∧
    (∀ p ∈ pattern, ((dfsStep width height pattern rng s).grid p).walls = 15) := by
  obtain ⟨g, stack, k, ev⟩ := s
  unfold StackSafe at hss
  simp only at hss hg
  cases stack with
  | nil => exact ⟨hss, hg⟩
  | cons top rest =>
    obtain ⟨x, y⟩ := top
    unfold dfsStep
    simp only
    match hn : dfsNeighbors width height pattern g x y with
    | [] =>
      constructor
      · intro q hq
        exact hss q (List.mem_cons_of_mem _ hq)
      · exact hg
    | e0 :: es =>
      simp only
      have hlen : rng k % (e0 :: es).length < (e0 :: es).length :=
        Nat.mod_lt _ (by simp)
      have hmem : (e0 :: es).getD (rng k % (e0 :: es).length) (0, 0, 0, 0) ∈ e0 :: es :=
        getD_mem _ _ _ hlen
      rw [← hn] at hmem
      obtain ⟨dx, dy, hd, hx1, hy1, hbnd, _⟩ := mem_dfsNeighbors hmem
      rw [← hn]
      match hget : (dfsNeighbors width height pattern g x y).getD
          (rng k % (dfsNeighbors width height pattern g x y).length) (0, 0, 0, 0) with
      | (nx, ny, w, ow) =>
        simp only
        rw [hget] at hx1 hy1 hd hbnd
        simp only at hx1 hy1 hd hbnd
        have hnpat : ((nx, ny) : Pos) ∉ pattern := inMazeBounds_notMem hbnd
        have hxpat : ((x, y) : Pos) ∉ pattern :=
          isNot42_true_iff.mp (hss (x, y) (by simp))
        constructor
        · intro q hq
          simp only [List.mem_cons] at hq
          rcases hq with rfl | hq
          · exact isNot42_true_iff.mpr hnpat
          · exact hss q (List.mem_cons.mpr hq)
        · intro p hp
          rw [walls_visit]
          exact carve_patOk hxpat hnpat hg p hp

lemma dfsLoop_patSafe (width height : Int) (pattern : List Pos) (rng : Rng)
    (fuel : Nat) (s : DfsState) (hss : StackSafe pattern s)
    (hg : ∀ p ∈ pattern, (s.grid p).walls = 15) :
    ∀ p ∈ pattern, ((dfsLoop width height pattern rng fuel s).grid p).walls = 15 := by
  induction fuel generalizing s with
  | zero => exact hg
  | succ n ih =>
    unfold dfsLoop
    match s.stack with
    | [] => exact hg
    | _ :: _ =>
      obtain ⟨h1, h2⟩ := dfsStep_patSafe width height pattern rng s hss hg
      exact ih _ h1 h2

lemma braidCell_patOk (width height : Int) (pattern : List Pos) (rng : Rng)
    (x y : Int) (st : Grid × Nat)
    (hg : ∀ p ∈ pattern, (st.1 p).walls = 15) :
    ∀ p ∈ pattern, ((braidCell width height pattern rng x y st).1 p).walls = 15 := by
  obtain ⟨g, k⟩ := st
  unfold braidCell
  simp only at hg ⊢
  by_cases hp : isNot42Pattern pattern x y
  · rw [hp]
    simp only [Bool.not_true, Bool.false_eq_true, if_false]
    by_cases hwc : wallCount (g (x, y)) = 3
    · simp only [hwc, if_true]
      match hn : braidNeighbors width height pattern x y with
      | [] => exact hg
      | e0 :: es =>
        simp only
        have hlen : rng k % (e0 :: es).length < (e0 :: es).length :=
          Nat.mod_lt _ (by simp)
        have hmem : (e0 :: es).getD (rng k % (e0 :: es).length) (0, 0, 0, 0) ∈ e0 :: es :=
          getD_mem _ _ _ hlen
        rw [← hn] at hmem
        obtain ⟨dx, dy, hd, hx1, hy1, hbnd⟩ := mem_braidNeighbors hmem
        rw [← hn]
        match hget : (braidNeighbors width height pattern x y).getD
            (rng k % (braidNeighbors width height pattern x y).length) (0, 0, 0, 0) with
        | (nx, ny, w, ow) =>
          simp only
          rw [hget] at hx1 hy1 hbnd
          simp only at hx1 hy1 hbnd
          exact carve_patOk (isNot42_true_iff.mp hp) (inMazeBounds_notMem hbnd) hg
    · simp only [hwc, if_false]
      exact hg
  · simp only [Bool.not_eq_true] at hp
    rw [hp]
    simp only [Bool.not_false, if_true]
    exact hg

lemma braid_patOk (width height : Int) (pattern : List Pos) (rng : Rng)
    (g : Grid) (hg : ∀ p ∈ pattern, (g p).walls = 15) :
    ∀ p ∈ pattern, ((braidDeadEnds width height pattern rng g).1 p).walls = 15 := by
  unfold braidDeadEnds
  generalize (intRange 1 (height - 1)) = rows
  have main : ∀ (rows : List Int) (st : Grid × Nat),
      (∀ p ∈ pattern, (st.1 p).walls = 15) →
      ∀ p ∈ pattern,
        (((rows.foldl (fun st y =>
          (intRange 1 (width - 1)).foldl
            (fun st' x => braidCell width height pattern rng x y st') st) st)).1 p).walls = 15 := by
    intro rows
    induction rows with
    | nil => intro st h; exact h
    | cons r rs ih =>
      intro st h
      simp only [List.foldl_cons]
      apply ih
      have inner : ∀ (l : List Int) (st : Grid × Nat),
          (∀ p ∈ pattern, (st.1 p).walls = 15) →
          ∀ p ∈ pattern,
            (((l.foldl (fun st' x => braidCell width height pattern rng x r st') st)).1 p).walls = 15 := by
        intro l
        induction l with
        | nil => intro st h; exact h
        | cons a as ih2 =>
          intro st h
          simp only [List.foldl_cons]
          exact ih2 _ (braidCell_patOk width height pattern rng a r st h)
      exact inner _ st h
  exact main rows (g, 0) hg

lemma primStep_patSafe (width height : Int) (pattern : List Pos) (rng : Rng)
    (s : PrimState) (hfs : FrontierSafe pattern s)
    (hg : ∀ p ∈ pattern, (s.grid p).walls = 15) :
    FrontierSafe pattern (primStep width height pattern rng s) ∧
    (∀ p ∈ pattern, ((primStep width height pattern rng s).grid p).walls = 15) := by
  obtain ⟨g, fr, k, ev⟩ := s
  unfold FrontierSafe at hfs
  simp only at hfs hg
  cases fr with
  | nil => exact ⟨hfs, hg⟩
  | cons f0 fs =>
    unfold primStep
    simp only
    have hlen : rng k % (f0 :: fs).length < (f0 :: fs).length :=
      Nat.mod_lt _ (by simp)
    have hmem : (f0 :: fs).getD (rng k % (f0 :: fs).length) (0, 0, 0, 0, 0, 0) ∈ f0 :: fs :=
      getD_mem _ _ _ hlen
    obtain ⟨hsafe1, hsafe2⟩ := hfs _ hmem
    match hget : (f0 :: fs).getD (rng k % (f0 :: fs).length) (0, 0, 0, 0, 0, 0),
        herase : (f0 :: fs).eraseIdx (rng k % (f0 :: fs).length) with
    | (cx, cy, nx, ny, w, ow), rest =>
      rw [hget] at hsafe1 hsafe2
      simp only at hsafe1 hsafe2
      have hrest : ∀ e ∈ rest, e ∈ f0 :: fs := by
        intro e hin
        rw [← herase] at hin
        exact (List.eraseIdx_sublist _ _).subset hin
      by_cases hv : (g (nx, ny)).visitedFlag
      · rw [hv]
        simp only [Bool.not_true, Bool.false_eq_true, if_false]
        constructor
        · intro e hin
          exact hfs e (hrest e hin)
        · exact hg
      · simp only [Bool.not_eq_true] at hv
        rw [hv]
        simp only [Bool.not_false, if_true]
        have hcpat : ((cx, cy) : Pos) ∉ pattern := isNot42_true_iff.mp hsafe1
        have hnpat : ((nx, ny) : Pos) ∉ pattern := isNot42_true_iff.mp hsafe2
        constructor
        · intro e hin
          simp only [List.mem_append] at hin
          rcases hin with hin | hin
          · exact hfs e (hrest e hin)
          · obtain ⟨dx, dy, hd, h1, h2, h3, h4, hbnd, _⟩ := mem_addToFrontier hin
            constructor
            · rw [h1, h2]
              exact hsafe2
            · rw [Bool.eq_iff_iff, isNot42_true_iff]
              have := inMazeBounds_notMem hbnd
              simp only [iff_true]
              intro hmem2
              exact this (by
                have : ((e.2.2.1, e.2.2.2.1) : Pos) ∈ pattern := hmem2
                exact this)
        · intro p hp
          rw [walls_visit]
          exact carve_patOk hcpat hnpat hg p hp

lemma primLoop_patSafe (width height : Int) (pattern : List Pos) (rng : Rng)
    (fuel : Nat) (s : PrimState) (hfs : FrontierSafe pattern s)
    (hg : ∀ p ∈ pattern, (s.grid p).walls = 15) :
    ∀ p ∈ pattern, ((primLoop width height pattern rng fuel s).grid p).walls = 15 := by
  induction fuel generalizing s with
  | zero => exact hg
  | succ n ih =>
    unfold primLoop
    match s.frontier with
    | [] => exact hg
    | _ :: _ =>
      obtain ⟨h1, h2⟩ := primStep_patSafe width height pattern rng s hfs hg
      exact ih _ h1 h2

lemma patOk_generateGrid (pattern : List Pos) (entry : Pos) :
    ∀ p ∈ pattern,
      ((setCell generateGrid entry ((generateGrid entry).setVisited true)) p).walls = 15 := by
  intro p hp
  rw [walls_visit]
  rfl

/-- C5: the protected region is immutable.  With an entry outside the
pattern (as construction guarantees), after any complete carve run — DFS
or Prim, with or without the braiding pass — every pattern cell still has
its initial fully walled state `0xF`. -/
theorem c5_pattern_immutable (width height : Int) (pattern : List Pos)
    (rng : Rng) (entry : Pos)
    (hentry : isNot42Pattern pattern entry.1 entry.2 = true) :
    (∀ perfect fuel,
      patternIntact pattern (dfsRun width height pattern rng perfect entry fuel).1 = true) ∧
    (∀ perfect fuel,
      patternIntact pattern (primRun width height pattern rng perfect entry fuel).1 = true) := by
  constructor
  · intro perfect fuel
    rw [patternIntact_iff]
    unfold dfsRun
    have hloop := dfsLoop_patSafe width height pattern rng fuel (dfsInit entry)
      (by
        intro q hq
        unfold dfsInit at hq
        simp only [List.mem_singleton] at hq
        rw [hq]
        exact hentry)
      (patOk_generateGrid pattern entry)
    cases perfect with
    | true => simpa using hloop
    | false =>
      simp only [Bool.false_eq_true, if_false]
      exact braid_patOk width height pattern rng _ hloop
  · intro perfect fuel
    rw [patternIntact_iff]
    unfold primRun
    have hloop := primLoop_patSafe width height pattern rng fuel
      (primInit width height pattern entry)
      (by
        intro e he
        obtain ⟨dx, dy, hd, h1, h2, h3, h4, hbnd, _⟩ := mem_addToFrontier he
        constructor
        · rw [h1, h2]
          obtain ⟨ex, ey⟩ := entry
          exact hentry
        · unfold inMazeBounds at hbnd
          rw [Bool.and_eq_true] at hbnd
          exact hbnd.2)
      (patOk_generateGrid pattern entry)
    cases perfect with
    | true => simpa using hloop
    | false =>
      simp only [Bool.false_eq_true, if_false]
      exact braid_patOk width height pattern rng _ hloop

/-- C5 witness: the protected region of a 9×9 maze is intact after a DFS
run with braiding. -/
theorem c5_pattern_immutable_witness :
    isNot42Pattern pattern9 (0 : Int) (0 : Int) = true ∧
    patternIntact pattern9 (dfsRun 9 9 pattern9 rngZero false ((0 : Int), (0 : Int)) 500).1 = true :=
  ⟨by decide,
   (c5_pattern_immutable 9 9 pattern9 rngZero (0, 0) (by decide)).1 false 500⟩


lemma dijKeyLe_refl (a : DijEntry) : dijKeyLe a a = true := by
  unfold dijKeyLe
  simp

lemma dijKeyLe_trans {a b c : DijEntry} (h1 : dijKeyLe a b = true)
    (h2 : dijKeyLe b c = true) : dijKeyLe a c = true := by
  unfold dijKeyLe dijKey at h1 h2 ⊢
  simp only [decide_eq_true_eq] at h1 h2 ⊢
  omega

lemma dijKeyLe_total (a b : DijEntry) :
    dijKeyLe a b = true ∨ dijKeyLe b a = true := by
  unfold dijKeyLe dijKey
  simp only [decide_eq_true_eq]
  omega

lemma dijKeyLe_cost {a b : DijEntry} (h : dijKeyLe a b = true) :
    a.1 ≤ b.1 := by
  unfold dijKeyLe dijKey at h
  simp only [decide_eq_true_eq] at h
  omega

lemma popMin_eq_none_iff {l : List DijEntry} : popMin l = none ↔ l = [] := by
  cases l with
  | nil => simp [popMin]
  | cons e es =>
    simp only [popMin]
    cases h : popMin es with
    | none => simp
    | some pr =>
      obtain ⟨m, rest⟩ := pr
      by_cases hle : dijKeyLe e m = true <;> simp [hle]

lemma popMin_perm {l : List DijEntry} {e : DijEntry} {rest : List DijEntry}
    (h : popMin l = some (e, rest)) : l.Perm (e :: rest) := by
  induction l generalizing e rest with
  | nil => cases h
  | cons a as ih =>
    simp only [popMin] at h
    cases hm : popMin as with
    | none =>
      rw [hm] at h
      cases h
      have : as = [] := popMin_eq_none_iff.mp hm
      rw [this]
    | some pr =>
      obtain ⟨m, r⟩ := pr
      rw [hm] at h
      dsimp only at h
      by_cases hle : dijKeyLe a m = true
      · rw [if_pos hle] at h
        cases h
        exact List.Perm.refl _
      · rw [if_neg hle] at h
        cases h
        exact (List.Perm.cons a (ih hm)).trans (List.Perm.swap e a r)

lemma popMin_le {l : List DijEntry} {e : DijEntry} {rest : List DijEntry}
    (h : popMin l = some (e, rest)) : ∀ x ∈ l, dijKeyLe e x = true := by
  induction l generalizing e rest with
  | nil => cases h
  | cons a as ih =>
    simp only [popMin] at h
    cases hm : popMin as with
    | none =>
      rw [hm] at h
      cases h
      intro x hx
      have : as = [] := popMin_eq_none_iff.mp hm
      rw [this] at hx
      simp only [List.mem_singleton] at hx
      rw [hx]
      exact dijKeyLe_refl _
    | some pr =>
      obtain ⟨m, r⟩ := pr
      rw [hm] at h
      dsimp only at h
      by_cases hle : dijKeyLe a m = true
      · rw [if_pos hle] at h
        cases h
        intro x hx
        simp only [List.mem_cons] at hx
        rcases hx with rfl | hx
        · exact dijKeyLe_refl _
        · exact dijKeyLe_trans hle (ih hm x hx)
      · rw [if_neg hle] at h
        cases h
        intro x hx
        simp only [List.mem_cons] at hx
        rcases hx with rfl | hx
        · rcases dijKeyLe_total e x with ht | ht
          · exact ht
          · exact absurd ht hle
        · exact ih hm x hx

lemma popMin_cost_le {l : List DijEntry} {e : DijEntry} {rest : List DijEntry}
    (h : popMin l = some (e, rest)) : ∀ x ∈ l, e.1 ≤ x.1 :=
  fun x hx => dijKeyLe_cost (popMin_le h x hx)

lemma setDist_read (d : Pos → Option Nat) (p : Pos) (c : Nat) (q : Pos) :
    setDist d p c q = if q = p then some c else d q := rfl

lemma chainOk_append_singleton (R : Pos → Pos → Bool) (p : List Pos) (n v : Pos)
    (hlast : p.getLast? = some v) (hc : chainOk R p = true) (hR : R v n = true) :
    chainOk R (p ++ [n]) = true := by
  induction p with
  | nil => cases hlast
  | cons a as ih =>
    cases as with
    | nil =>
      simp only [List.getLast?_singleton, Option.some.injEq] at hlast
      rw [hlast]
      simp [chainOk, hR]
    | cons b bs =>
      simp only [chainOk, Bool.and_eq_true] at hc
      have hlast' : (b :: bs).getLast? = some v := by
        rw [List.getLast?_cons_cons] at hlast
        exact hlast
      have := ih hlast' hc.2
      simp only [List.cons_append, chainOk, Bool.and_eq_true]
      constructor
      · exact hc.1
      · simpa using this

lemma chainOk_get (R : Pos → Pos → Bool) (p : List Pos) (hc : chainOk R p = true)
    (i : Nat) (hi : i + 1 < p.length) :
    R (p.get ⟨i, by omega⟩) (p.get ⟨i + 1, hi⟩) = true := by
  induction p generalizing i with
  | nil => simp at hi
  | cons a as ih =>
    cases as with
    | nil => simp at hi
    | cons b bs =>
      simp only [chainOk, Bool.and_eq_true] at hc
      cases i with
      | zero => exact hc.1
      | succ j =>
        have hj : j + 1 < (b :: bs).length := by
          simp only [List.length_cons] at hi ⊢
          omega
        exact ih hc.2 j hj

lemma pathOk_head {R : Pos → Pos → Bool} {a b : Pos} {p : List Pos}
    (h : pathOk R a b p = true) : p.head? = some a := by
  unfold pathOk at h
  simp only [Bool.and_eq_true, decide_eq_true_eq] at h
  exact h.1.1

lemma pathOk_last {R : Pos → Pos → Bool} {a b : Pos} {p : List Pos}
    (h : pathOk R a b p = true) : p.getLast? = some b := by
  unfold pathOk at h
  simp only [Bool.and_eq_true, decide_eq_true_eq] at h
  exact h.1.2

lemma pathOk_chain {R : Pos → Pos → Bool} {a b : Pos} {p : List Pos}
    (h : pathOk R a b p = true) : chainOk R p = true := by
  unfold pathOk at h
  simp only [Bool.and_eq_true, decide_eq_true_eq] at h
  exact h.2

lemma pathOk_of_parts {R : Pos → Pos → Bool} {a b : Pos} {p : List Pos}
    (h1 : p.head? = some a) (h2 : p.getLast? = some b) (h3 : chainOk R p = true) :
    pathOk R a b p = true := by
  unfold pathOk
  simp only [Bool.and_eq_true, decide_eq_true_eq]
  exact ⟨⟨h1, h2⟩, h3⟩

lemma pathOk_extend {R : Pos → Pos → Bool} {a v n : Pos} {p : List Pos}
    (h : pathOk R a v p = true) (hR : R v n = true) :
    pathOk R a n (p ++ [n]) = true := by
  have hh := pathOk_head h
  have hl := pathOk_last h
  have hc := pathOk_chain h
  apply pathOk_of_parts
  · cases p with
    | nil => cases hh
    | cons x xs => simpa using hh
  · simp [List.getLast?_append]
  · exact chainOk_append_singleton R p n v hl hc hR

lemma dijRelax_dist (width height : Int) (v : Pos) (c : Nat) (path : List Pos)
    (st : List DijEntry × (Pos → Option Nat)) (d : Int × Int × Bool) (q : Pos) :
    (dijRelax width height v c path st d).2 q = st.2 q ∨
    ((dijRelax width height v c path st d).2 q = some (c + 1) ∧
      (st.2 q = none ∨ ∃ d0, st.2 q = some d0 ∧ c + 1 < d0)) := by
  obtain ⟨dx, dy, hw⟩ := d
  unfold dijRelax
  simp only
  by_cases hb : (decide (0 ≤ v.1 + dx ∧ v.1 + dx < width ∧ 0 ≤ v.2 + dy ∧ v.2 + dy < height) && !hw) = true
  · rw [if_pos hb]
    by_cases hbet : (match st.2 (v.1 + dx, v.2 + dy) with
        | none => true
        | some dOld => decide (c + 1 < dOld)) = true
    · rw [if_pos hbet]
      simp only [setDist_read]
      by_cases hq : q = ((v.1 + dx, v.2 + dy) : Pos)
      · right
        refine ⟨by rw [if_pos hq], ?_⟩
        rw [hq]
        cases hd0 : st.2 ((v.1 + dx, v.2 + dy) : Pos) with
        | none => exact Or.inl rfl
        | some d0 =>
          right
          refine ⟨d0, rfl, ?_⟩
          rw [hd0] at hbet
          simpa using hbet
      · left
        rw [if_neg hq]
    · rw [if_neg hbet]
      left
      rfl
  · rw [if_neg hb]
    left
    rfl

lemma relaxFold_dist (width height : Int) (v : Pos) (c : Nat) (path : List Pos)
    (L : List (Int × Int × Bool)) (st : List DijEntry × (Pos → Option Nat)) (q : Pos) :
    (L.foldl (dijRelax width height v c path) st).2 q = st.2 q ∨
    ((L.foldl (dijRelax width height v c path) st).2 q = some (c + 1) ∧
      (st.2 q = none ∨ ∃ d0, st.2 q = some d0 ∧ c + 1 < d0)) := by
  induction L generalizing st with
  | nil => exact Or.inl rfl
  | cons d L' ih =>
    rw [List.foldl_cons]
    rcases ih (dijRelax width height v c path st d) with h | ⟨h1, h2⟩
    · rcases dijRelax_dist width height v c path st d q with h' | ⟨h1', h2'⟩
      · exact Or.inl (h.trans h')
      · exact Or.inr ⟨h.trans h1', h2'⟩
    · rcases dijRelax_dist width height v c path st d q with h' | ⟨h1', h2'⟩
      · rw [h'] at h2
        exact Or.inr ⟨h1, h2⟩
      · rw [h1'] at h2
        rcases h2 with h2 | ⟨d0, hd0, hlt⟩
        · cases h2
        · rw [Option.some.injEq] at hd0
          omega

lemma relaxFold_dist_le (width height : Int) (v : Pos) (c : Nat) (path : List Pos)
    (L : List (Int × Int × Bool)) (st : List DijEntry × (Pos → Option Nat))
    (q : Pos) (d0 : Nat) (h : st.2 q = some d0) :
    ∃ d1, (L.foldl (dijRelax width height v c path) st).2 q = some d1 ∧ d1 ≤ d0 := by
  rcases relaxFold_dist width height v c path L st q with h' | ⟨h1, h2⟩
  · exact ⟨d0, h'.trans h, le_refl _⟩
  · rcases h2 with h2 | ⟨d0', hd0', hlt⟩
    · rw [h] at h2
      cases h2
    · rw [h] at hd0'
      rw [Option.some.injEq] at hd0'
      exact ⟨c + 1, h1, by omega⟩

lemma relaxFold_none (width height : Int) (v : Pos) (c : Nat) (path : List Pos)
    (L : List (Int × Int × Bool)) (st : List DijEntry × (Pos → Option Nat))
    (q : Pos) (h : (L.foldl (dijRelax width height v c path) st).2 q = none) :
    st.2 q = none := by
  rcases relaxFold_dist width height v c path L st q with h' | ⟨h1, _⟩
  · exact h'.symm.trans h
  · rw [h1] at h
    cases h

lemma inGridB_pair (width height : Int) (x y : Int) :
    inGridB width height (x, y) =
      decide (0 ≤ x ∧ x < width ∧ 0 ≤ y ∧ y < height) := rfl

lemma stepOpen_intro (width height : Int) (g : Grid) (v : Pos)
    (dx dy : Int) (wb : Nat) (hmem : (dx, dy, wb) ∈ relDirs)
    (hbnd : inGridB width height (v.1 + dx, v.2 + dy) = true)
    (hwall : (g v).hasWall wb = false) :
    stepOpen width height g v (v.1 + dx, v.2 + dy) = true := by
  unfold stepOpen
  rw [List.any_eq_true]
  refine ⟨(dx, dy, wb), hmem, ?_⟩
  simp [hbnd, hwall]

lemma stepOpen_elim {width height : Int} {g : Grid} {v b : Pos}
    (h : stepOpen width height g v b = true) :
    ∃ dx dy wb, (dx, dy, wb) ∈ relDirs ∧ b = ((v.1 + dx, v.2 + dy) : Pos) ∧
      inGridB width height b = true ∧ (g v).hasWall wb = false := by
  unfold stepOpen at h
  rw [List.any_eq_true] at h
  obtain ⟨⟨dx, dy, wb⟩, hmem, hcond⟩ := h
  simp only [Bool.and_eq_true, decide_eq_true_eq, Bool.not_eq_true'] at hcond
  exact ⟨dx, dy, wb, hmem, hcond.1.1, hcond.1.2, hcond.2⟩

lemma dijRelax_pq (width height : Int) (g : Grid) (v : Pos) (c : Nat)
    (path : List Pos) (st : List DijEntry × (Pos → Option Nat))
    (d : Int × Int × Bool)
    (hd : ∃ dx dy wb, d = (dx, dy, (g v).hasWall wb) ∧ (dx, dy, wb) ∈ relDirs) :
    (dijRelax width height v c path st d).1 = st.1 ∧
      (dijRelax width height v c path st d).2 = st.2 ∨
    ∃ n, (dijRelax width height v c path st d).1 = st.1 ++ [(c + 1, n, path ++ [n])] ∧
      (dijRelax width height v c path st d).2 = setDist st.2 n (c + 1) ∧
      stepOpen width height g v n = true ∧
      inGridB width height n = true ∧
      (st.2 n = none ∨ ∃ d0, st.2 n = some d0 ∧ c + 1 < d0) := by
  obtain ⟨dx, dy, wb, rfl, hmem⟩ := hd
  unfold dijRelax
  simp only
  by_cases hb : (decide (0 ≤ v.1 + dx ∧ v.1 + dx < width ∧ 0 ≤ v.2 + dy ∧ v.2 + dy < height) && !(g v).hasWall wb) = true
  · rw [if_pos hb]
    rw [Bool.and_eq_true, Bool.not_eq_true'] at hb
    by_cases hbet : (match st.2 (v.1 + dx, v.2 + dy) with
        | none => true
        | some dOld => decide (c + 1 < dOld)) = true
    · rw [if_pos hbet]
      right
      refine ⟨(v.1 + dx, v.2 + dy), rfl, rfl, ?_, ?_, ?_⟩
      · exact stepOpen_intro width height g v dx dy wb hmem
          (by rw [inGridB_pair]; exact hb.1) hb.2
      · rw [inGridB_pair]
        exact hb.1
      · cases hd0 : st.2 ((v.1 + dx, v.2 + dy) : Pos) with
        | none => exact Or.inl rfl
        | some d0 =>
          right
          refine ⟨d0, rfl, ?_⟩
          rw [hd0] at hbet
          simpa using hbet
    · rw [if_neg hbet]
      exact Or.inl ⟨rfl, rfl⟩
  · rw [if_neg hb]
    exact Or.inl ⟨rfl, rfl⟩

lemma relaxFold_pq (width height : Int) (g : Grid) (v : Pos) (c : Nat)
    (path : List Pos) (L : List (Int × Int × Bool))
    (st : List DijEntry × (Pos → Option Nat))
    (hL : ∀ d ∈ L, ∃ dx dy wb, d = (dx, dy, (g v).hasWall wb) ∧ (dx, dy, wb) ∈ relDirs) :
    ∃ new, (L.foldl (dijRelax width height v c path) st).1 = st.1 ++ new ∧
      (∀ e ∈ new, ∃ n, e = (c + 1, n, path ++ [n]) ∧
        stepOpen width height g v n = true ∧
        inGridB width height n = true ∧
        (st.2 n = none ∨ ∃ d0, st.2 n = some d0 ∧ c + 1 < d0) ∧
        (L.foldl (dijRelax width height v c path) st).2 n = some (c + 1)) ∧
      (∀ q, (L.foldl (dijRelax width height v c path) st).2 q = st.2 q ∨
        (c + 1, q, path ++ [q]) ∈ new) := by
  induction L generalizing st with
  | nil => exact ⟨[], by simp, by simp, fun q => Or.inl rfl⟩
  | cons d L' ih =>
    rw [List.foldl_cons]
    have hd := hL d (by simp)
    have hL' : ∀ d' ∈ L', ∃ dx dy wb, d' = (dx, dy, (g v).hasWall wb) ∧ (dx, dy, wb) ∈ relDirs :=
      fun d' hd' => hL d' (by simp [hd'])
    rcases dijRelax_pq width height g v c path st d hd with ⟨hpq, hdist⟩ | ⟨n, hpq, hdist, hso, hbnd, hold⟩
    · obtain ⟨new, hnew1, hnew2, hnew3⟩ := ih (dijRelax width height v c path st d) hL'
      refine ⟨new, by rw [hnew1, hpq], ?_, ?_⟩
      · intro e he
        obtain ⟨n, he1, he2, he3, he4, he5⟩ := hnew2 e he
        rw [hdist] at he4
        exact ⟨n, he1, he2, he3, he4, he5⟩
      · intro q
        rcases hnew3 q with h | h
        · rw [hdist] at h
          exact Or.inl h
        · exact Or.inr h
    · obtain ⟨new, hnew1, hnew2, hnew3⟩ := ih (dijRelax width height v c path st d) hL'
      refine ⟨(c + 1, n, path ++ [n]) :: new, ?_, ?_, ?_⟩
      · rw [hnew1, hpq]
        simp
      · intro e he
        simp only [List.mem_cons] at he
        rcases he with rfl | he
        · refine ⟨n, rfl, hso, hbnd, hold, ?_⟩
          rcases relaxFold_dist width height v c path L'
              (dijRelax width height v c path st d) n with h' | ⟨h1, _⟩
          · rw [h', hdist, setDist_read, if_pos rfl]
          · exact h1
        · obtain ⟨n', he1, he2, he3, he4, he5⟩ := hnew2 e he
          refine ⟨n', he1, he2, he3, ?_, he5⟩
          rw [hdist, setDist_read] at he4
          by_cases hq : n' = n
          · rw [if_pos hq] at he4
            rcases he4 with he4 | ⟨d0, hd0, hlt⟩
            · cases he4
            · rw [Option.some.injEq] at hd0
              omega
          · rw [if_neg hq] at he4
            exact he4
      · intro q
        rcases hnew3 q with h | h
        · rw [hdist, setDist_read] at h
          by_cases hq : q = n
          · rw [if_pos hq] at h
            right
            rw [hq]
            exact List.mem_cons_self _ _
          · rw [if_neg hq] at h
            exact Or.inl h
        · exact Or.inr (List.mem_cons_of_mem _ h)

lemma relaxFold_complete (width height : Int) (g : Grid) (v : Pos) (c : Nat)
    (path : List Pos) (L : List (Int × Int × Bool))
    (st : List DijEntry × (Pos → Option Nat))
    (dx dy : Int) (hw : Bool) (hmem : (dx, dy, hw) ∈ L) (hwf : hw = false)
    (hbnd : inGridB width height (v.1 + dx, v.2 + dy) = true) :
    ∃ dn, (L.foldl (dijRelax width height v c path) st).2 (v.1 + dx, v.2 + dy) = some dn ∧
      dn ≤ c + 1 := by
  induction L generalizing st with
  | nil => cases hmem
  | cons d L' ih =>
    rw [List.foldl_cons]
    rcases List.mem_cons.mp hmem with rfl | hmem'
    · -- this very direction is relaxed first
      have hafter : ∃ dn, (dijRelax width height v c path st (dx, dy, hw)).2
          ((v.1 + dx, v.2 + dy) : Pos) = some dn ∧ dn ≤ c + 1 := by
        unfold dijRelax
        simp only [hwf]
        have hb' : (decide (0 ≤ v.1 + dx ∧ v.1 + dx < width ∧ 0 ≤ v.2 + dy ∧ v.2 + dy < height) && !false) = true := by
          rw [inGridB_pair] at hbnd
          rw [hbnd]
          rfl
        rw [if_pos hb']
        by_cases hbet : (match st.2 (v.1 + dx, v.2 + dy) with
            | none => true
            | some dOld => decide (c + 1 < dOld)) = true
        · rw [if_pos hbet]
          exact ⟨c + 1, by simp [setDist_read], le_refl _⟩
        · rw [if_neg hbet]
          cases hd0 : st.2 ((v.1 + dx, v.2 + dy) : Pos) with
          | none =>
            rw [hd0] at hbet
            simp at hbet
          | some d0 =>
            rw [hd0] at hbet
            simp only [decide_eq_true_eq] at hbet
            exact ⟨d0, rfl, by omega⟩
      obtain ⟨dn, hdn, hle⟩ := hafter
      obtain ⟨d1, hd1, hle1⟩ := relaxFold_dist_le width height v c path L' _ _ dn hdn
      exact ⟨d1, hd1, by omega⟩
    · exact ih _ hmem'

lemma relaxDirs_shape (g : Grid) (v : Pos) :
    ∀ d ∈ relaxDirs (g v), ∃ dx dy wb,
      d = (dx, dy, (g v).hasWall wb) ∧ (dx, dy, wb) ∈ relDirs := by
  intro d hd
  fin_cases hd
  · exact ⟨0, -1, Cell.NORTH, rfl, by decide⟩
  · exact ⟨1, 0, Cell.EAST, rfl, by decide⟩
  · exact ⟨0, 1, Cell.SOUTH, rfl, by decide⟩
  · exact ⟨-1, 0, Cell.WEST, rfl, by decide⟩

lemma relDirs_to_relaxDirs (g : Grid) (v : Pos) (dx dy : Int) (wb : Nat)
    (h : (dx, dy, wb) ∈ relDirs) :
    ((dx, dy, (g v).hasWall wb) : Int × Int × Bool) ∈ relaxDirs (g v) := by
  fin_cases h <;>
    simp [relaxDirs, Cell.NORTH, Cell.EAST, Cell.SOUTH, Cell.WEST]

lemma wallSymB_spec {width height : Int} {g : Grid}
    (h : wallSymB width height g = true) :
    ∀ a : Pos, ∀ dx dy : Int, ∀ wq ow : Nat, (dx, dy, wq, ow) ∈ DIRECTIONS →
      inGridB width height a = true →
      inGridB width height (a.1 + dx, a.2 + dy) = true →
      (g a).hasWall wq = (g (a.1 + dx, a.2 + dy)).hasWall ow := by
  intro a dx dy wq ow hd ha hb
  unfold wallSymB at h
  rw [List.all_eq_true] at h
  have h1 := h a (mem_allCells.mpr ha)
  rw [List.all_eq_true] at h1
  have h2 := h1 (dx, dy, wq, ow) hd
  simp only [hb, Bool.not_true, Bool.false_or, beq_iff_eq] at h2
  exact h2

lemma stepOpen_symm {width height : Int} {g : Grid} {a b : Pos}
    (hsymB : wallSymB width height g = true)
    (ha : inGridB width height a = true)
    (hso : stepOpen width height g a b = true) :
    stepOpen width height g b a = true := by
  obtain ⟨dx, dy, wb, hmem, rfl, hbnd, hwall⟩ := stepOpen_elim hso
  fin_cases hmem
  · have hsym := wallSymB_spec hsymB a 0 (-1) Cell.NORTH Cell.SOUTH (by decide) ha hbnd
    have h2 : (g (a.1 + 0, a.2 + -1)).hasWall Cell.SOUTH = false := by
      rw [← hsym]
      exact hwall
    have := stepOpen_intro width height g (a.1 + 0, a.2 + -1) 0 1 Cell.SOUTH
      (by decide) (by obtain ⟨a1, a2⟩ := a; simpa [inGridB_pair] using (by simpa [inGridB_pair] using ha)) h2
    simpa using this
  · have hsym := wallSymB_spec hsymB a 1 0 Cell.EAST Cell.WEST (by decide) ha hbnd
    have h2 : (g (a.1 + 1, a.2 + 0)).hasWall Cell.WEST = false := by
      rw [← hsym]
      exact hwall
    have := stepOpen_intro width height g (a.1 + 1, a.2 + 0) (-1) 0 Cell.WEST
      (by decide) (by obtain ⟨a1, a2⟩ := a; simpa [inGridB_pair] using (by simpa [inGridB_pair] using ha)) h2
    simpa using this
  · have hsym := wallSymB_spec hsymB a 0 1 Cell.SOUTH Cell.NORTH (by decide) ha hbnd
    have h2 : (g (a.1 + 0, a.2 + 1)).hasWall Cell.NORTH = false := by
      rw [← hsym]
      exact hwall
    have := stepOpen_intro width height g (a.1 + 0, a.2 + 1) 0 (-1) Cell.NORTH
      (by decide) (by obtain ⟨a1, a2⟩ := a; simpa [inGridB_pair] using (by simpa [inGridB_pair] using ha)) h2
    simpa using this
  · have hsym := wallSymB_spec hsymB a (-1) 0 Cell.WEST Cell.EAST (by decide) ha hbnd
    have h2 : (g (a.1 + -1, a.2 + 0)).hasWall Cell.EAST = false := by
      rw [← hsym]
      exact hwall
    have := stepOpen_intro width height g (a.1 + -1, a.2 + 0) 1 0 Cell.EAST
      (by decide) (by obtain ⟨a1, a2⟩ := a; simpa [inGridB_pair] using (by simpa [inGridB_pair] using ha)) h2
    simpa using this

lemma chainOk_mono {R R' : Pos → Pos → Bool} {q : List Pos}
    (h : ∀ a b, R a b = true → R' a b = true) (hc : chainOk R q = true) :
    chainOk R' q = true := by
  induction q with
  | nil => rfl
  | cons a as ih =>
    cases as with
    | nil => rfl
    | cons b bs =>
      simp only [chainOk, Bool.and_eq_true] at hc ⊢
      exact ⟨h a b hc.1, ih hc.2⟩

lemma chainOk_stepOpen_openEdge {width height : Int} {g : Grid} {q : List Pos}
    (hsymB : wallSymB width height g = true) :
    ∀ a : Pos, q.head? = some a → inGridB width height a = true →
      chainOk (stepOpen width height g) q = true →
      chainOk (openEdge width height g) q = true := by
  induction q with
  | nil => intro a h; cases h
  | cons x xs ih =>
    intro a hhead hbnd hc
    simp only [List.head?_cons, Option.some.injEq] at hhead
    subst hhead
    cases xs with
    | nil => rfl
    | cons b bs =>
      simp only [chainOk, Bool.and_eq_true] at hc ⊢
      have hb_bnd : inGridB width height b = true := by
        obtain ⟨dx, dy, wb, _, rfl, hbnd2, _⟩ := stepOpen_elim hc.1
        exact hbnd2
      constructor
      · unfold openEdge
        rw [Bool.and_eq_true]
        exact ⟨hc.1, stepOpen_symm hsymB hbnd hc.1⟩
      · exact ih b (by simp) hb_bnd hc.2

lemma EntryOk_mono {width height : Int} {g : Grid} {start : Pos}
    {dist dist' : Pos → Option Nat} {e : DijEntry}
    (hmono : ∀ q d0, dist q = some d0 → ∃ d1, dist' q = some d1 ∧ d1 ≤ d0)
    (h : EntryOk width height g start dist e) :
    EntryOk width height g start dist' e := by
  obtain ⟨h1, h2, h3, h4, h5⟩ := h
  refine ⟨h1, h2, h3, ?_, h5⟩
  intro q hq
  obtain ⟨dq, hdq, hle⟩ := h4 q hq
  obtain ⟨d1, hd1, hle1⟩ := hmono q dq hdq
  exact ⟨d1, hd1, by omega⟩

lemma EntryOk_dist_pos {width height : Int} {g : Grid} {start : Pos}
    {dist : Pos → Option Nat} {e : DijEntry}
    (h : EntryOk width height g start dist e) :
    ∃ d, dist e.2.1 = some d ∧ d ≤ e.1 := by
  obtain ⟨h1, h2, h3, h4, h5⟩ := h
  have hl := pathOk_last h1
  have hmem : e.2.1 ∈ e.2.2 := List.mem_of_getLast?_eq_some hl
  exact h4 e.2.1 hmem

lemma dijStep_inv_stale (width height : Int) (g : Grid) (start endP : Pos)
    (s : DijState) (hinv : DijInv width height g start endP s)
    (c : Nat) (v : Pos) (p : List Pos) (rest : List DijEntry)
    (hpop : popMin s.pq = some ((c, v, p), rest))
    (hne : v ≠ endP) (dv : Nat) (hdv : s.dist v = some dv) (hlt : dv < c) :
    DijInv width height g start endP
      ⟨rest, s.dist, s.popped ++ [(c, v, p)]⟩ := by
  obtain ⟨inv1, inv2, inv3, inv4, inv5, inv6⟩ := hinv
  have hperm := popMin_perm hpop
  have hsub : ∀ x ∈ rest, x ∈ s.pq :=
    fun x hx => hperm.symm.subset (List.mem_cons_of_mem _ hx)
  have hme : ((c, v, p) : DijEntry) ∈ s.pq :=
    hperm.symm.subset (List.mem_cons_self _ _)
  refine ⟨?_, ?_, ?_, ?_, inv5, ?_⟩
  · intro e he
    simp only [List.mem_append, List.mem_singleton] at he
    rcases he with he | he | rfl
    · exact inv1 e (by simp [hsub e he])
    · exact inv1 e (by simp [he])
    · exact inv1 _ (by simp [hme])
  · intro q d hd
    rcases inv2 q d hd with ⟨e', he', h1, h2⟩ | ⟨e', he', h1, h2⟩
    · rcases List.mem_cons.mp (hperm.subset he') with rfl | hin
      · right
        exact ⟨(c, v, p), by simp, h1, h2⟩
      · left
        exact ⟨e', hin, h1, h2⟩
    · right
      exact ⟨e', by simp [he'], h1, h2⟩
  · intro e0 he0 e' he'
    simp only [List.mem_append, List.mem_singleton] at he0
    rcases he0 with he0 | rfl
    · exact inv3 e0 he0 e' (hsub e' he')
    · exact popMin_cost_le hpop e' (hsub e' he')
  · intro e0 he0 hd n hso
    simp only [List.mem_append, List.mem_singleton] at he0
    rcases he0 with he0 | rfl
    · exact inv4 e0 he0 hd n hso
    · rw [hdv] at hd
      rw [Option.some.injEq] at hd
      omega
  · intro e0 he0
    simp only [List.mem_append, List.mem_singleton] at he0
    rcases he0 with he0 | rfl
    · exact inv6 e0 he0
    · exact hne

lemma dijStep_inv_expand (width height : Int) (g : Grid) (start endP : Pos)
    (s : DijState) (hinv : DijInv width height g start endP s)
    (c : Nat) (v : Pos) (p : List Pos) (rest : List DijEntry)
    (hpop : popMin s.pq = some ((c, v, p), rest))
    (hne : v ≠ endP)
    (hvd : s.dist v = some c) :
    DijInv width height g start endP
      ⟨(dijExpand width height g v c p rest s.dist).1,
       (dijExpand width height g v c p rest s.dist).2,
       s.popped ++ [(c, v, p)]⟩ := by
  obtain ⟨inv1, inv2, inv3, inv4, inv5, inv6⟩ := hinv
  have hperm := popMin_perm hpop
  have hsub : ∀ x ∈ rest, x ∈ s.pq :=
    fun x hx => hperm.symm.subset (List.mem_cons_of_mem _ hx)
  have hme : ((c, v, p) : DijEntry) ∈ s.pq :=
    hperm.symm.subset (List.mem_cons_self _ _)
  have hEok : EntryOk width height g start s.dist (c, v, p) :=
    inv1 _ (by simp [hme])
  obtain ⟨new, hex1, hnew, hchg⟩ :=
    relaxFold_pq width height g v c p (relaxDirs (g v)) (rest, s.dist)
      (relaxDirs_shape g v)
  dsimp only at hex1 hnew hchg
  have hmono : ∀ q d0, s.dist q = some d0 →
      ∃ d1, ((relaxDirs (g v)).foldl (dijRelax width height v c p) (rest, s.dist)).2 q = some d1 ∧ d1 ≤ d0 :=
    fun q d0 h => relaxFold_dist_le width height v c p (relaxDirs (g v)) (rest, s.dist) q d0 h
  unfold dijExpand
  refine ⟨?_, ?_, ?_, ?_, ?_, ?_⟩
  · -- inv1
    intro e he
    simp only [List.mem_append, List.mem_singleton] at he
    rcases he with he | he | rfl
    · rw [hex1] at he
      rcases List.mem_append.mp he with he | he
      · exact EntryOk_mono hmono (inv1 e (by simp [hsub e he]))
      · -- a freshly pushed entry
        obtain ⟨n, rfl, hso, hbnd, hold, hset⟩ := hnew e he
        obtain ⟨hpath, hlen, hnd, hdcl, hbnds⟩ := hEok
        refine ⟨pathOk_extend hpath hso, by simp [hlen], ?_, ?_, ?_⟩
        · rw [List.nodup_append]
          refine ⟨hnd, List.nodup_singleton n, ?_⟩
          intro a ha han
          simp only [List.mem_singleton] at han
          subst han
          obtain ⟨dq, hdq, hdqle⟩ := hdcl a ha
          rcases hold with hold | ⟨d0, hd0, hlt0⟩
          · rw [hold] at hdq
            cases hdq
          · rw [hd0] at hdq
            rw [Option.some.injEq] at hdq
            omega
        · intro q hq
          rcases List.mem_append.mp hq with hq | hq
          · obtain ⟨dq, hdq, hdqle⟩ := hdcl q hq
            obtain ⟨d1, hd1, hle1⟩ := hmono q dq hdq
            exact ⟨d1, hd1, by omega⟩
          · simp only [List.mem_singleton] at hq
            subst hq
            exact ⟨c + 1, hset, le_refl _⟩
        · intro q hq
          rcases List.mem_append.mp hq with hq | hq
          · exact hbnds q hq
          · simp only [List.mem_singleton] at hq
            subst hq
            exact hbnd
    · exact EntryOk_mono hmono (inv1 e (by simp [he]))
    · exact EntryOk_mono hmono hEok
  · -- inv2
    intro q d hd
    dsimp only at hd ⊢
    rcases hchg q with hun | hin
    · rw [hun] at hd
      rcases inv2 q d hd with ⟨e', he', h1, h2⟩ | ⟨e', he', h1, h2⟩
      · rcases List.mem_cons.mp (hperm.subset he') with rfl | hin2
        · right
          refine ⟨(c, v, p), by simp, h1, h2⟩
        · left
          refine ⟨e', ?_, h1, h2⟩
          rw [hex1]
          exact List.mem_append.mpr (Or.inl hin2)
      · right
        exact ⟨e', by simp [he'], h1, h2⟩
    · obtain ⟨n, heq, hso, hbnd, hold, hset⟩ := hnew _ hin
      have hn : n = q := by
        have := congrArg (fun e : DijEntry => e.2.1) heq
        simpa using this.symm
      subst hn
      rw [hset] at hd
      rw [Option.some.injEq] at hd
      left
      refine ⟨(c + 1, n, p ++ [n]), ?_, rfl, by omega⟩
      rw [hex1]
      exact List.mem_append.mpr (Or.inr hin)
  · -- inv3
    intro e0 he0 e' he'
    dsimp only at he' he0
    rw [hex1] at he'
    simp only [List.mem_append, List.mem_singleton] at he0
    rcases List.mem_append.mp he' with he' | he'
    · rcases he0 with he0 | rfl
      · exact inv3 e0 he0 e' (hsub e' he')
      · exact popMin_cost_le hpop e' (hsub e' he')
    · obtain ⟨n, rfl, _, _, _, _⟩ := hnew e' he'
      rcases he0 with he0 | rfl
      · have := inv3 e0 he0 _ hme
        simp only at this ⊢
        omega
      · simp only
        omega
  · -- inv4
    intro e0 he0 hd n hso
    dsimp only at he0 hd hso ⊢
    simp only [List.mem_append, List.mem_singleton] at he0
    rcases he0 with he0 | rfl
    · rcases hchg e0.2.1 with hun | hin
      · rw [hun] at hd
        obtain ⟨dn, hdn, hdnle⟩ := inv4 e0 he0 hd n hso
        obtain ⟨d1, hd1, hle1⟩ := hmono n dn hdn
        exact ⟨d1, hd1, by omega⟩
      · obtain ⟨n', heq, _, _, _, hset⟩ := hnew _ hin
        have hn' : n' = e0.2.1 := by
          have := congrArg (fun e : DijEntry => e.2.1) heq
          simpa using this.symm
        subst hn'
        rw [hset] at hd
        rw [Option.some.injEq] at hd
        have := inv3 e0 he0 _ hme
        simp only at this
        omega
    · -- the newly processed entry: completeness of the relaxation pass
      simp only at hso hd ⊢
      obtain ⟨dx, dy, wb, hmem, rfl, hbnd, hwall⟩ := stepOpen_elim hso
      have hmem2 := relDirs_to_relaxDirs g v dx dy wb hmem
      rw [hwall] at hmem2
      exact relaxFold_complete width height g v c p (relaxDirs (g v))
        (rest, s.dist) dx dy false hmem2 rfl hbnd
  · -- inv5
    dsimp only
    rcases hchg start with hun | hin
    · rw [hun]
      exact inv5
    · obtain ⟨n, heq, _, _, hold, _⟩ := hnew _ hin
      have hn : n = start := by
        have := congrArg (fun e : DijEntry => e.2.1) heq
        simpa using this.symm
      subst hn
      rcases hold with hold | ⟨d0, hd0, hlt0⟩
      · rw [inv5] at hold
        cases hold
      · rw [inv5] at hd0
        rw [Option.some.injEq] at hd0
        omega
  · -- inv6
    intro e0 he0
    dsimp only at he0
    simp only [List.mem_append, List.mem_singleton] at he0
    rcases he0 with he0 | rfl
    · exact inv6 e0 he0
    · exact hne

lemma dij_found (width height : Int) (g : Grid) (start endP : Pos)
    (s : DijState) (hinv : DijInv width height g start endP s)
    (c : Nat) (v : Pos) (p : List Pos) (rest : List DijEntry)
    (hpop : popMin s.pq = some ((c, v, p), rest)) (hv : v = endP) :
    pathOk (stepOpen width height g) start endP p = true ∧ p.length = c + 1 ∧
    (∀ q, pathOk (stepOpen width height g) start endP q = true →
      c + 1 ≤ q.length) := by
  obtain ⟨inv1, inv2, inv3, inv4, inv5, inv6⟩ := hinv
  have hme : ((c, v, p) : DijEntry) ∈ s.pq :=
    (popMin_perm hpop).symm.subset (List.mem_cons_self _ _)
  have hEok : EntryOk width height g start s.dist (c, v, p) :=
    inv1 _ (by simp [hme])
  obtain ⟨hpath, hlen, _, _, _⟩ := hEok
  subst hv
  refine ⟨hpath, hlen, ?_⟩
  intro q hq
  have hqne : q ≠ [] := by
    intro h
    rw [h] at hq
    have := pathOk_head hq
    cases this
  have hqlen : 1 ≤ q.length := by
    cases q with
    | nil => exact absurd rfl hqne
    | cons x xs => simp
  have key : ∀ k j, ∀ hj : j < q.length, j + k = q.length - 1 →
      (∃ d, s.dist (q.get ⟨j, hj⟩) = some d ∧ d ≤ j) → c ≤ q.length - 1 := by
    intro k
    induction k with
    | zero =>
      rintro j hj hsum ⟨d, hd, hdle⟩
      have hjval : j = q.length - 1 := by omega
      have hget : q.get ⟨j, hj⟩ = v := by
        have hlast := pathOk_last hq
        rw [List.getLast?_eq_getLast q hqne] at hlast
        rw [Option.some.injEq] at hlast
        rw [← hlast, List.getLast_eq_get q hqne]
        congr 1
        simp [hjval]
      rw [hget] at hd
      rcases inv2 v d hd with ⟨e', he', h1, h2⟩ | ⟨e', he', h1, h2⟩
      · have := popMin_cost_le hpop e' he'
        omega
      · exact absurd h1 (inv6 e' he')
    | succ kk ih =>
      rintro j hj hsum ⟨d, hd, hdle⟩
      have hj1 : j + 1 < q.length := by omega
      rcases inv2 _ d hd with ⟨e', he', h1, h2⟩ | ⟨e', he', h1, h2⟩
      · have := popMin_cost_le hpop e' he'
        omega
      · have htrig : s.dist e'.2.1 = some e'.1 := by
          rw [h1, h2]
          exact hd
        have hstep : stepOpen width height g (q.get ⟨j, by omega⟩) (q.get ⟨j + 1, hj1⟩) = true :=
          chainOk_get _ q (pathOk_chain hq) j hj1
        obtain ⟨dn, hdn, hdnle⟩ := inv4 e' he' htrig (q.get ⟨j + 1, hj1⟩)
          (by rw [h1]; exact hstep)
        exact ih (j + 1) hj1 (by omega) ⟨dn, hdn, by omega⟩
  have h0 : ∃ d, s.dist (q.get ⟨0, by omega⟩) = some d ∧ d ≤ 0 := by
    have hhead := pathOk_head hq
    have hget0 : q.get ⟨0, by omega⟩ = start := by
      cases q with
      | nil => exact absurd rfl hqne
      | cons x xs =>
        simp only [List.head?_cons, Option.some.injEq] at hhead
        simpa using hhead
    rw [hget0]
    exact ⟨0, inv5, le_refl 0⟩
  have := key (q.length - 1) 0 (by omega) (by omega) h0
  omega

lemma dijInit_inv (width height : Int) (g : Grid) (start endP : Pos)
    (hstart : inGridB width height start = true) :
    DijInv width height g start endP (dijInit start) := by
  refine ⟨?_, ?_, ?_, ?_, ?_, ?_⟩
  · intro e he
    simp only [dijInit, List.append_nil, List.mem_singleton] at he
    subst he
    refine ⟨?_, by simp, List.nodup_singleton _, ?_, ?_⟩
    · apply pathOk_of_parts
      · simp
      · simp
      · rfl
    · intro q hq
      simp only [List.mem_singleton] at hq
      subst hq
      refine ⟨0, ?_, le_refl 0⟩
      simp [dijInit]
    · intro q hq
      simp only [List.mem_singleton] at hq
      subst hq
      exact hstart
  · intro q d hd
    simp only [dijInit] at hd ⊢
    by_cases hq : q = start
    · rw [if_pos hq] at hd
      rw [Option.some.injEq] at hd
      left
      exact ⟨(0, start, [start]), by simp, by simp [hq], by simp [hd]⟩
    · rw [if_neg hq] at hd
      cases hd
  · intro e0 he0
    simp only [dijInit, List.not_mem_nil] at he0
  · intro e0 he0
    simp only [dijInit, List.not_mem_nil] at he0
  · simp [dijInit]
  · intro e0 he0
    simp only [dijInit, List.not_mem_nil] at he0

lemma dijLoop_sound (width height : Int) (g : Grid) (start endP : Pos)
    (fuel : Nat) (s : DijState)
    (hinv : DijInv width height g start endP s) (p : List Pos)
    (hres : (dijLoop width height g endP fuel s).2 = some p) :
    pathOk (stepOpen width height g) start endP p = true ∧
    (∀ q, pathOk (stepOpen width height g) start endP q = true →
      p.length ≤ q.length) := by
  induction fuel generalizing s with
  | zero => cases hres
  | succ n ih =>
    unfold dijLoop at hres
    cases hpop : popMin s.pq with
    | none =>
      rw [hpop] at hres
      cases hres
    | some pr =>
      obtain ⟨⟨c, v, pp⟩, rest⟩ := pr
      rw [hpop] at hres
      dsimp only at hres
      by_cases hv : v = endP
      · rw [if_pos hv] at hres
        dsimp only at hres
        rw [Option.some.injEq] at hres
        subst hres
        obtain ⟨h1, h2, h3⟩ := dij_found width height g start endP s hinv c v pp rest hpop hv
        refine ⟨h1, ?_⟩
        intro q hq
        have := h3 q hq
        omega
      · rw [if_neg hv] at hres
        by_cases hst : (match s.dist v with
            | none => false
            | some dv => decide (c > dv)) = true
        · rw [if_pos hst] at hres
          cases hdv : s.dist v with
          | none =>
            rw [hdv] at hst
            cases hst
          | some dv =>
            rw [hdv] at hst
            simp only [decide_eq_true_eq] at hst
            exact ih _ (dijStep_inv_stale width height g start endP s hinv
              c v pp rest hpop hv dv hdv (by omega)) hres
        · rw [if_neg hst] at hres
          have hme : ((c, v, pp) : DijEntry) ∈ s.pq :=
            (popMin_perm hpop).symm.subset (List.mem_cons_self _ _)
          obtain ⟨d, hd, hdle⟩ := EntryOk_dist_pos (hinv.1 ((c, v, pp) : DijEntry) (by simp [hme]))
          have hd' : s.dist v = some d := hd
          have hdle' : d ≤ c := hdle
          have hvd : s.dist v = some c := by
            rw [hd'] at hst
            simp only [decide_eq_true_eq] at hst
            have hdc : d = c := by omega
            rw [hd', hdc]
          exact ih _ (dijStep_inv_expand width height g start endP s hinv
            c v pp rest hpop hv hvd) hres

/-- C2: whenever `find_shortest_path` stores a path on a carved,
wall-symmetric maze, that path starts at the entry, ends at the exit,
every consecutive pair of coordinates is cardinal-adjacent with no wall
between them on either side, and its length is minimal among all
wall-respecting entry-to-exit paths of the open-edge graph. -/
theorem c2_shortest_path_correct (gen : MazeGen) (g : Grid) (fuel : Nat)
    (p : List Pos)
    (hmaze : gen.maze = some g)
    (hentry : inGridB gen.width gen.height gen.entry = true)
    (hsym : wallSymB gen.width gen.height g = true)
    (hfound : (dijRun gen.width gen.height g gen.entry gen.mazeExit fuel).2 =
      some p) :
    (findShortestPath gen fuel).path = p ∧
    p.head? = some gen.entry ∧
    p.getLast? = some gen.mazeExit ∧
    chainOk (openEdge gen.width gen.height g) p = true ∧
    ∀ q : List Pos, q.head? = some gen.entry →
      q.getLast? = some gen.mazeExit →
      chainOk (openEdge gen.width gen.height g) q = true →
      p.length ≤ q.length := by
  obtain ⟨hpOk, hmin⟩ := dijLoop_sound gen.width gen.height g gen.entry
    gen.mazeExit fuel (dijInit gen.entry)
    (dijInit_inv gen.width gen.height g gen.entry gen.mazeExit hentry) p hfound
  refine ⟨?_, pathOk_head hpOk, pathOk_last hpOk, ?_, ?_⟩
  · unfold findShortestPath
    rw [hmaze]
    dsimp only
    rw [hfound]
  · exact chainOk_stepOpen_openEdge hsym gen.entry (pathOk_head hpOk) hentry
      (pathOk_chain hpOk)
  · intro q hqh hql hqc
    have hqc' : chainOk (stepOpen gen.width gen.height g) q = true :=
      chainOk_mono (fun a b hab => by
        unfold openEdge at hab
        rw [Bool.and_eq_true] at hab
        exact hab.1) hqc
    exact hmin q (pathOk_of_parts hqh hql hqc')

theorem c2_shortest_path_correct_witness :
    genW.maze = some gridW ∧
    (findShortestPath genW 100).path =
      [(0, 0), (1, 0), (2, 0), (2, 1), (2, 2)] :=
  ⟨rfl, (c2_shortest_path_correct genW gridW 100
    [(0, 0), (1, 0), (2, 0), (2, 1), (2, 2)] rfl (by decide) (by decide)
    (by decide)).1⟩

lemma sum_map_le_sum_map {α : Type} (l : List α) (f f' : α → Nat)
    (hle : ∀ x ∈ l, f x ≤ f' x) : (l.map f).sum ≤ (l.map f').sum := by
  induction l with
  | nil => simp
  | cons a as ih =>
    simp only [List.map_cons, List.sum_cons]
    have h1 := hle a (List.mem_cons_self a as)
    have h2 := ih (fun x hx => hle x (List.mem_cons_of_mem a hx))
    omega

lemma sum_map_lt_sum_map {α : Type} (l : List α) (f f' : α → Nat)
    (hle : ∀ x ∈ l, f x ≤ f' x) (x0 : α) (hx0 : x0 ∈ l)
    (hlt : f x0 < f' x0) : (l.map f).sum < (l.map f').sum := by
  induction l with
  | nil => cases hx0
  | cons a as ih =>
    simp only [List.map_cons, List.sum_cons]
    rcases List.mem_cons.mp hx0 with rfl | hx0'
    · have h2 := sum_map_le_sum_map as f f'
        (fun x hx => hle x (List.mem_cons_of_mem x0 hx))
      omega
    · have h1 := hle a (List.mem_cons_self a as)
      have h2 := ih (fun x hx => hle x (List.mem_cons_of_mem a hx)) hx0'
      omega

lemma sum_map_const {α : Type} (l : List α) (c : Nat) :
    (l.map (fun _ => c)).sum = l.length * c := by
  induction l with
  | nil => simp
  | cons a as ih =>
    simp only [List.map_cons, List.sum_cons, List.length_cons, ih]
    ring

lemma length_allCells (width height : Int) :
    (allCells width height).length = height.toNat * width.toNat := by
  unfold allCells
  rw [List.length_flatMap]
  simp only [Function.comp_def]
  have h1 : ((intRange 0 height).map
        (fun y => ((intRange 0 width).map (fun x => ((x, y) : Pos))).length)) =
      (intRange 0 height).map (fun _ => width.toNat) := by
    apply List.map_congr_left
    intro y _
    rw [List.length_map, length_intRange]
    simp
  rw [h1, sum_map_const, length_intRange]
  simp

lemma toNat_mul_nonneg {width height : Int} (hw : 0 ≤ width)
    (hh : 0 ≤ height) :
    (width * height).toNat = width.toNat * height.toNat := by
  obtain ⟨a, rfl⟩ := Int.eq_ofNat_of_zero_le hw
  obtain ⟨b, rfl⟩ := Int.eq_ofNat_of_zero_le hh
  rw [← Int.natCast_mul, Int.toNat_natCast]
  simp

lemma EntryOk_cost_le {width height : Int} {g : Grid} {start : Pos}
    {dist : Pos → Option Nat} {e : DijEntry}
    (h : EntryOk width height g start dist e) :
    e.1 + 1 ≤ (allCells width height).length := by
  obtain ⟨h1, h2, h3, h4, h5⟩ := h
  have hsub : e.2.2 ⊆ allCells width height :=
    fun q hq => mem_allCells.mpr (h5 q hq)
  have hsp := List.Subperm.length_le (List.Nodup.subperm h3 hsub)
  omega

lemma EntryOk_cover {width height : Int} {g : Grid} {start : Pos}
    {dist : Pos → Option Nat} {e : DijEntry}
    (h : EntryOk width height g start dist e)
    (hfull : (allCells width height).length ≤ e.1 + 1) :
    ∀ q, inGridB width height q = true →
      ∃ dq, dist q = some dq ∧ dq ≤ e.1 := by
  obtain ⟨h1, h2, h3, h4, h5⟩ := h
  intro q hq
  have hsub : e.2.2 ⊆ allCells width height :=
    fun r hr => mem_allCells.mpr (h5 r hr)
  obtain ⟨l', hlp, hls⟩ := List.Nodup.subperm h3 hsub
  have hleq : l' = allCells width height := by
    apply hls.eq_of_length
    have hl1 := hlp.length_eq
    have hl2 := hls.length_le
    omega
  have hperm : List.Perm e.2.2 (allCells width height) := hleq ▸ hlp.symm
  have hq2 : q ∈ e.2.2 := hperm.mem_iff.mpr (mem_allCells.mpr hq)
  exact h4 q hq2

lemma distCapSum_setDist_lt (width height : Int) (d : Pos → Option Nat)
    (n : Pos) (c' : Nat) (hbnd : inGridB width height n = true)
    (hc : c' < (width * height).toNat)
    (hold : d n = none ∨ ∃ d0, d n = some d0 ∧ c' < d0) :
    distCapSum width height (setDist d n c') + 1 ≤
      distCapSum width height d := by
  unfold distCapSum
  have hlt : (match setDist d n c' n with
      | some x => min x ((width * height).toNat)
      | none => (width * height).toNat) <
      (match d n with
      | some x => min x ((width * height).toNat)
      | none => (width * height).toNat) := by
    rw [setDist_read, if_pos rfl]
    dsimp only
    rcases hold with hold | ⟨d0, hd0, hlt0⟩
    · rw [hold]
      exact min_lt_of_left_lt hc
    · rw [hd0]
      dsimp only
      have hm1 : min c' ((width * height).toNat) = c' := min_eq_left (by omega)
      rw [hm1]
      exact lt_min hlt0 hc
  have hle : ∀ x ∈ allCells width height,
      (match setDist d n c' x with
      | some v => min v ((width * height).toNat)
      | none => (width * height).toNat) ≤
      (match d x with
      | some v => min v ((width * height).toNat)
      | none => (width * height).toNat) := by
    intro x _
    by_cases hxn : x = n
    · subst hxn
      exact hlt.le
    · rw [setDist_read, if_neg hxn]
  exact Nat.succ_le_of_lt
    (sum_map_lt_sum_map _ _ _ hle n (mem_allCells.mpr hbnd) hlt)

lemma dijRelax_cases (width height : Int) (v : Pos) (c : Nat) (p : List Pos)
    (st : List DijEntry × (Pos → Option Nat)) (d : Int × Int × Bool) :
    dijRelax width height v c p st d = st ∨
    ∃ n : Pos, inGridB width height n = true ∧
      (st.2 n = none ∨ ∃ d0, st.2 n = some d0 ∧ c + 1 < d0) ∧
      dijRelax width height v c p st d =
        (st.1 ++ [(c + 1, n, p ++ [n])], setDist st.2 n (c + 1)) := by
  obtain ⟨dx, dy, hasW⟩ := d
  unfold dijRelax
  simp only
  by_cases hb : (decide (0 ≤ v.1 + dx ∧ v.1 + dx < width ∧
      0 ≤ v.2 + dy ∧ v.2 + dy < height) && !hasW) = true
  · rw [if_pos hb]
    by_cases hbet : (match st.2 (v.1 + dx, v.2 + dy) with
        | none => true
        | some dOld => decide (c + 1 < dOld)) = true
    · rw [if_pos hbet]
      right
      refine ⟨((v.1 + dx, v.2 + dy) : Pos), ?_, ?_, rfl⟩
      · rw [inGridB_pair]
        rw [Bool.and_eq_true] at hb
        exact hb.1
      · cases hdn : st.2 ((v.1 + dx, v.2 + dy) : Pos) with
        | none => exact Or.inl rfl
        | some d0 =>
          right
          refine ⟨d0, rfl, ?_⟩
          rw [hdn] at hbet
          simpa using hbet
    · rw [if_neg hbet]
      left
      rfl
  · rw [if_neg hb]
    left
    rfl

lemma relaxFold_phi (width height : Int) (v : Pos) (c : Nat) (p : List Pos)
    (L : List (Int × Int × Bool)) (st : List DijEntry × (Pos → Option Nat))
    (hc : c + 2 ≤ (width * height).toNat ∨
      ∀ q, inGridB width height q = true →
        ∃ dq, st.2 q = some dq ∧ dq ≤ c) :
    5 * distCapSum width height
        (L.foldl (dijRelax width height v c p) st).2 +
      (L.foldl (dijRelax width height v c p) st).1.length ≤
    5 * distCapSum width height st.2 + st.1.length := by
  induction L generalizing st with
  | nil => simp
  | cons dd LL ih =>
    rw [List.foldl_cons]
    rcases dijRelax_cases width height v c p st dd with heq |
      ⟨n, hbnd, hold, heq⟩
    · rw [heq]
      exact ih st hc
    · rw [heq]
      rcases hc with hc | hcov
      · have hdec := distCapSum_setDist_lt width height st.2 n (c + 1)
          hbnd (by omega) hold
        have hih := ih ((st.1 ++ [(c + 1, n, p ++ [n])],
          setDist st.2 n (c + 1))) (Or.inl hc)
        dsimp only at hih
        rw [List.length_append] at hih
        simp only [List.length_cons, List.length_nil] at hih
        omega
      · obtain ⟨dq, hdq, hdqle⟩ := hcov _ hbnd
        rcases hold with hold | ⟨d0, hd0, hlt0⟩
        · rw [hdq] at hold
          cases hold
        · rw [hdq] at hd0
          rw [Option.some.injEq] at hd0
          omega

lemma dijPhi_expand_lt (width height : Int) (g : Grid) (start endP : Pos)
    (s : DijState) (hinv : DijInv width height g start endP s)
    (c : Nat) (v : Pos) (p : List Pos) (rest : List DijEntry)
    (hpop : popMin s.pq = some ((c, v, p), rest))
    (hw : 0 ≤ width) (hh : 0 ≤ height) :
    5 * distCapSum width height
        (dijExpand width height g v c p rest s.dist).2 +
      (dijExpand width height g v c p rest s.dist).1.length <
    dijPhi width height s := by
  have hme : ((c, v, p) : DijEntry) ∈ s.pq :=
    (popMin_perm hpop).symm.subset (List.mem_cons_self _ _)
  have hEok : EntryOk width height g start s.dist (c, v, p) :=
    hinv.1 ((c, v, p) : DijEntry) (by simp [hme])
  have hcost := EntryOk_cost_le hEok
  have hN : (allCells width height).length = (width * height).toNat := by
    rw [length_allCells, toNat_mul_nonneg hw hh, Nat.mul_comm]
  have hplen : s.pq.length = rest.length + 1 := by
    have := (popMin_perm hpop).length_eq
    simpa using this
  unfold dijPhi dijExpand
  by_cases hfull : c + 2 ≤ (width * height).toNat
  · have hph := relaxFold_phi width height v c p (relaxDirs (g v))
      (rest, s.dist) (Or.inl hfull)
    dsimp only at hph
    omega
  · have hcost' : (allCells width height).length ≤ c + 1 := by
      have hc1 : ((c, v, p) : DijEntry).1 + 1 ≤ (allCells width height).length :=
        hcost
      dsimp only at hc1
      omega
    have hcov : ∀ q, inGridB width height q = true →
        ∃ dq, s.dist q = some dq ∧ dq ≤ c :=
      EntryOk_cover hEok hcost'
    have hph := relaxFold_phi width height v c p (relaxDirs (g v))
      (rest, s.dist) (Or.inr hcov)
    dsimp only at hph
    omega

lemma dijLoop_exhaust (width height : Int) (g : Grid) (start endP : Pos)
    (hw : 0 ≤ width) (hh : 0 ≤ height) :
    ∀ (fuel : Nat) (s : DijState), DijInv width height g start endP s →
    dijPhi width height s ≤ fuel →
    (dijLoop width height g endP fuel s).2 = none →
    ((dijLoop width height g endP fuel s).1).pq = [] := by
  intro fuel
  induction fuel with
  | zero =>
    intro s _ hphi _
    unfold dijLoop
    unfold dijPhi at hphi
    have hlen : s.pq.length = 0 := by omega
    exact List.length_eq_zero.mp hlen
  | succ n ih =>
    intro s hinv hphi hres
    unfold dijLoop at hres ⊢
    cases hpop : popMin s.pq with
    | none =>
      dsimp only
      exact popMin_eq_none_iff.mp hpop
    | some pr =>
      obtain ⟨⟨c, v, pp⟩, rest⟩ := pr
      rw [hpop] at hres
      dsimp only at hres ⊢
      have hplen : s.pq.length = rest.length + 1 := by
        have := (popMin_perm hpop).length_eq
        simpa using this
      by_cases hv : v = endP
      · rw [if_pos hv] at hres
        dsimp only at hres
        cases hres
      · rw [if_neg hv] at hres ⊢
        by_cases hst : (match s.dist v with
            | none => false
            | some dv => decide (c > dv)) = true
        · rw [if_pos hst] at hres ⊢
          cases hdv : s.dist v with
          | none =>
            rw [hdv] at hst
            cases hst
          | some dv =>
            have hlt : dv < c := by
              rw [hdv] at hst
              simpa using hst
            apply ih _ (dijStep_inv_stale width height g start endP s hinv
              c v pp rest hpop hv dv hdv hlt) ?_ hres
            unfold dijPhi at hphi ⊢
            dsimp only
            omega
        · rw [if_neg hst] at hres ⊢
          have hme : ((c, v, pp) : DijEntry) ∈ s.pq :=
            (popMin_perm hpop).symm.subset (List.mem_cons_self _ _)
          obtain ⟨d, hd, hdle⟩ := EntryOk_dist_pos
            (hinv.1 ((c, v, pp) : DijEntry) (by simp [hme]))
          have hd' : s.dist v = some d := hd
          have hdle' : d ≤ c := hdle
          have hvd : s.dist v = some c := by
            rw [hd'] at hst
            simp only [decide_eq_true_eq] at hst
            have hdc : d = c := by omega
            rw [hd', hdc]
          apply ih _ (dijStep_inv_expand width height g start endP s hinv
            c v pp rest hpop hv hvd) ?_ hres
          have hph := dijPhi_expand_lt width height g start endP s hinv
            c v pp rest hpop hw hh
          unfold dijPhi at hph hphi ⊢
          dsimp only
          omega

lemma stepOpen_gridFull (width height : Int) (a b : Pos) :
    stepOpen width height gridFull a b = false := by
  have h1 : Cell.mkInit.hasWall 1 = true := rfl
  have h2 : Cell.mkInit.hasWall 2 = true := rfl
  have h4 : Cell.mkInit.hasWall 4 = true := rfl
  have h8 : Cell.mkInit.hasWall 8 = true := rfl
  unfold stepOpen relDirs gridFull
  simp [h1, h2, h4, h8]

lemma noReaches_gridFull :
    ¬ Reaches genA.width genA.height gridFull genA.entry genA.mazeExit := by
  intro hr
  obtain ⟨p, hp⟩ := hr
  have hh := pathOk_head hp
  have hl := pathOk_last hp
  have hc := pathOk_chain hp
  cases p with
  | nil => cases hh
  | cons a as =>
    cases as with
    | nil =>
      simp only [List.head?_cons, Option.some.injEq] at hh
      simp only [List.getLast?_singleton, Option.some.injEq] at hl
      rw [hh] at hl
      cases hl
    | cons b bs =>
      simp only [chainOk, Bool.and_eq_true] at hc
      have hcf := hc.1
      rw [stepOpen_gridFull] at hcf
      cases hcf

/-- C8: on a carved maze whose exit is unreachable from the entry, the
pathfinder raises nothing (it is a total function here), emits no found
result at any fuel, leaves the generator — and so the stored path —
unchanged, and with enough fuel genuinely exhausts its queue; calling it
before any maze has been carved likewise leaves the state unchanged. -/
theorem c8_unreachable_no_event (gen : MazeGen) (g : Grid)
    (hmaze : gen.maze = some g)
    (hentry : inGridB gen.width gen.height gen.entry = true)
    (hur : ¬ Reaches gen.width gen.height g gen.entry gen.mazeExit) :
    (∀ fuel,
      (dijRun gen.width gen.height g gen.entry gen.mazeExit fuel).2 = none ∧
      findShortestPath gen fuel = gen) ∧
    (∃ fuel0, ∀ fuel, fuel0 ≤ fuel →
      ((dijRun gen.width gen.height g gen.entry gen.mazeExit fuel).1).pq = []) ∧
    (∀ gen' : MazeGen, gen'.maze = none →
      ∀ fuel, findShortestPath gen' fuel = gen') := by
  have hw : 0 ≤ gen.width := by
    unfold inGridB at hentry
    rw [decide_eq_true_eq] at hentry
    omega
  have hh : 0 ≤ gen.height := by
    unfold inGridB at hentry
    rw [decide_eq_true_eq] at hentry
    omega
  have hnone : ∀ fuel,
      (dijRun gen.width gen.height g gen.entry gen.mazeExit fuel).2 = none := by
    intro fuel
    cases hres : (dijRun gen.width gen.height g gen.entry gen.mazeExit fuel).2 with
    | none => rfl
    | some p =>
      exact absurd ⟨p, (dijLoop_sound gen.width gen.height g gen.entry
        gen.mazeExit fuel (dijInit gen.entry)
        (dijInit_inv gen.width gen.height g gen.entry gen.mazeExit hentry)
        p hres).1⟩ hur
  refine ⟨fun fuel => ⟨hnone fuel, ?_⟩,
    ⟨dijPhi gen.width gen.height (dijInit gen.entry), fun fuel hf => ?_⟩,
    fun gen' hm fuel => ?_⟩
  · unfold findShortestPath
    rw [hmaze]
    dsimp only
    rw [hnone fuel]
  · exact dijLoop_exhaust gen.width gen.height g gen.entry gen.mazeExit hw hh
      fuel (dijInit gen.entry)
      (dijInit_inv gen.width gen.height g gen.entry gen.mazeExit hentry)
      hf (hnone fuel)
  · unfold findShortestPath
    rw [hm]

theorem c8_unreachable_no_event_witness :
    genA.maze = some gridFull ∧
    inGridB genA.width genA.height genA.entry = true ∧
    (dijRun genA.width genA.height gridFull genA.entry genA.mazeExit 100).2 =
      none ∧
    findShortestPath genA 100 = genA := by
  have h := c8_unreachable_no_event genA gridFull rfl (by decide)
    noReaches_gridFull
  exact ⟨rfl, by decide, (h.1 100).1, (h.1 100).2⟩

end AMazeIng
